import Mathlib

/-!
# CitrusNotes mobile app — verification of the hierarchical file-system core

Shallow embedding of the CitrusMobile repository's virtual file-system
logic.  The React Native client code (tag handling, the favorites view,
move/rename/create handlers, the axios API wrapper) is translated from the
JavaScript sources.  The FastAPI backend (`Backend/app/main.py`) is not part
of the available sources; store operations that live there are modelled from
the specification and say so in their doc comments.

Conventions of the embedding:
* JavaScript ids are `String`s; `parent_id` is `Option String`, `none`
  standing for JS `null`.  The JS string `"null"` is `some "null"` — a
  perfectly ordinary non-null string, which matters for the move-to-root
  quirk.
* Recursions that terminate in JS only because the data is acyclic are given
  explicit fuel; the store's size is used as fuel at call sites, and the
  theorems show this fuel is sufficient on acyclic states.
-/

namespace Citrus

/-- A file-system entry (file or folder), after `Backend` persistence.
Field names follow the JSON objects handled by the client
(`_id`, `user_id`, `name`, `is_folder`, `parent_id`, `is_starred`, `tags`,
`created_at`). -/
structure Entry where
  id : String
  owner : String
  name : String
  is_folder : Bool
  parent_id : Option String
  is_starred : Bool
  tags : List String
  created_at : Nat
  content_ref : Option String
deriving DecidableEq, Repr

/-- The persisted entry set (the backend's collection), as a flat table. -/
abbrev Store := List Entry

/-- `allItems.find(i => i._id === itemId)` — id lookup in a flat table. -/
def jsFind (s : Store) (x : String) : Option Entry :=
  s.find? (fun e => e.id == x)

/-- Walk `parent_id` links up from the pid `p`, `fuel` steps at most;
`true` iff the walk reaches the root (`null`) within the fuel. -/
def chainReachesRoot (s : Store) : Nat → Option String → Bool
  | _, none => true
  | 0, some _ => false
  | Nat.succ n, some p =>
    match jsFind s p with
    | none => false
    | some e => chainReachesRoot s n e.parent_id

/-- Walk `parent_id` links up from the pid `p`; `true` iff the id `t`
occurs on the chain within the fuel (fuel exhaustion and dangling links
count as "not seen"). -/
def chainHasId (s : Store) : Nat → Option String → String → Bool
  | _, none, _ => false
  | 0, some _, _ => false
  | Nat.succ n, some p, t =>
    p == t ||
      match jsFind s p with
      | none => false
      | some e => chainHasId s n e.parent_id t

/-- Conservative variant of the ancestor-chain walk used by guards that must
fail safe: when the fuel runs out the chain is *assumed* to contain `t`. -/
def chainHasIdC (s : Store) : Nat → Option String → String → Bool
  | _, none, _ => false
  | 0, some _, _ => true
  | Nat.succ n, some p, t =>
    p == t ||
      match jsFind s p with
      | none => false
      | some e => chainHasIdC s n e.parent_id t

/-- The full pid chain from `p` to the root, as the list of non-null pids
visited, when the walk reaches the root within the fuel. -/
def chainList (s : Store) : Nat → Option String → Option (List String)
  | _, none => some []
  | 0, some _ => none
  | Nat.succ n, some p =>
    match jsFind s p with
    | none => none
    | some e => (chainList s n e.parent_id).map (fun l => p :: l)

/-- "Every entry's `parent_id` chain followed upward reaches `null` in
finitely many steps" — the spec's no-cycles invariant. -/
def Acyclic (s : Store) : Prop :=
  ∀ e ∈ s, ∃ n, chainReachesRoot s n e.parent_id = true

/-- `a` is a strict ancestor of the entry `e` in `s`, i.e. `e` is a
descendant of `a`: some upward walk from `e.parent_id` meets `a`. -/
def IsDescendantOf (s : Store) (a : String) (e : Entry) : Prop :=
  ∃ n, chainHasId s n e.parent_id a = true

end Citrus

namespace Citrus

theorem chainList_isSome_iff_reaches (s : Store) :
    ∀ (n : Nat) (p : Option String),
      (chainList s n p).isSome = chainReachesRoot s n p := by
  intro n
  induction n with
  | zero => intro p; cases p <;> simp [chainList, chainReachesRoot]
  | succ n ih =>
    intro p
    cases p with
    | none => simp [chainList, chainReachesRoot]
    | some q =>
      simp only [chainList, chainReachesRoot]
      cases jsFind s q with
      | none => simp
      | some e => simpa using ih e.parent_id

theorem chainList_mono (s : Store) :
    ∀ (n m : Nat) (p : Option String) (l : List String),
      chainList s n p = some l → n ≤ m → chainList s m p = some l := by
  intro n
  induction n with
  | zero =>
    intro m p l h _
    cases p with
    | none => cases m <;> simpa [chainList] using h
    | some q => simp [chainList] at h
  | succ n ih =>
    intro m p l h hms
    cases p with
    | none =>
      cases m <;> simpa [chainList] using h
    | some q =>
      cases m with
      | zero => omega
      | succ m =>
        simp only [chainList] at h ⊢
        cases hf : jsFind s q with
        | none => rw [hf] at h; simp at h
        | some e =>
          rw [hf] at h
          simp only [Option.map_eq_some'] at h
          obtain ⟨l', hl', rfl⟩ := h
          have hm := ih m e.parent_id l' hl' (by omega)
          simp [hm]

theorem chainList_fuel_irrel (s : Store) :
    ∀ (n m : Nat) (p : Option String) (l l' : List String),
      chainList s n p = some l → chainList s m p = some l' → l = l' := by
  intro n m p l l' h h'
  rcases Nat.le_total n m with hle | hle
  · rw [chainList_mono s n m p l h hle] at h'
    exact Option.some.inj h'
  · rw [chainList_mono s m n p l' h' hle] at h
    exact (Option.some.inj h).symm

/-- Elements of a root-reaching chain all have entries in the store. -/
theorem chainList_mem_entry (s : Store) :
    ∀ (n : Nat) (p : Option String) (l : List String),
      chainList s n p = some l →
      ∀ x ∈ l, ∃ e, jsFind s x = some e ∧ e.id = x := by
  intro n
  induction n with
  | zero =>
    intro p l h x hx
    cases p with
    | none => simp [chainList] at h; subst h; simp at hx
    | some q => simp [chainList] at h
  | succ n ih =>
    intro p l h x hx
    cases p with
    | none =>
      simp [chainList] at h; subst h; simp at hx
    | some q =>
      simp only [chainList] at h
      cases hf : jsFind s q with
      | none => rw [hf] at h; simp at h
      | some e =>
        rw [hf] at h
        simp only [Option.map_eq_some'] at h
        obtain ⟨l', hl', rfl⟩ := h
        rcases List.mem_cons.mp hx with rfl | hx'
        · exact ⟨e, hf, by
            have := List.find?_some hf
            simpa using this⟩
        · exact ih e.parent_id l' hl' x hx'

/-- Every element of a root-reaching chain starts its own root-reaching
chain, which is a suffix of the original one. -/
theorem chainList_mem_suffix (s : Store) :
    ∀ (n : Nat) (p : Option String) (l : List String),
      chainList s n p = some l →
      ∀ x ∈ l, ∃ (m : Nat) (l₂ : List String),
        chainList s m (some x) = some (x :: l₂) ∧ (x :: l₂) <:+ l := by
  intro n
  induction n with
  | zero =>
    intro p l h x hx
    cases p with
    | none => simp [chainList] at h; subst h; simp at hx
    | some q => simp [chainList] at h
  | succ n ih =>
    intro p l h x hx
    cases p with
    | none => simp [chainList] at h; subst h; simp at hx
    | some q =>
      simp only [chainList] at h
      cases hf : jsFind s q with
      | none => rw [hf] at h; simp at h
      | some e =>
        rw [hf] at h
        simp only [Option.map_eq_some'] at h
        obtain ⟨l', hl', rfl⟩ := h
        rcases List.mem_cons.mp hx with rfl | hx'
        · refine ⟨n + 1, l', ?_, List.suffix_refl _⟩
          simp [chainList, hf, hl']
        · obtain ⟨m, l₂, hm, hsuf⟩ := ih e.parent_id l' hl' x hx'
          exact ⟨m, l₂, hm, hsuf.trans (List.suffix_cons q l')⟩

/-- A root-reaching chain never revisits a pid. -/
theorem chainList_nodup (s : Store) :
    ∀ (n : Nat) (p : Option String) (l : List String),
      chainList s n p = some l → l.Nodup := by
  intro n
  induction n with
  | zero =>
    intro p l h
    cases p with
    | none => simp [chainList] at h; subst h; simp
    | some q => simp [chainList] at h
  | succ n ih =>
    intro p l h
    cases p with
    | none => simp [chainList] at h; subst h; simp
    | some q =>
      simp only [chainList] at h
      cases hf : jsFind s q with
      | none => rw [hf] at h; simp at h
      | some e =>
        rw [hf] at h
        simp only [Option.map_eq_some'] at h
        obtain ⟨l', hl', rfl⟩ := h
        refine List.nodup_cons.mpr ⟨?_, ih e.parent_id l' hl'⟩
        intro hq
        obtain ⟨m, l₂, hm, hsuf⟩ := chainList_mem_suffix s n e.parent_id l' hl' q hq
        have hfull : chainList s (n + 1) (some q) = some (q :: l') := by
          simp [chainList, hf, hl']
        have := chainList_fuel_irrel s m (n + 1) (some q) (q :: l₂) (q :: l') hm hfull
        have hlen := List.IsSuffix.length_le hsuf
        have : l₂ = l' := by simpa using this
        subst this
        simp at hlen

/-- Pigeonhole: a root-reaching chain is no longer than the store. -/
theorem chainList_length_le (s : Store) (n : Nat) (p : Option String)
    (l : List String) (h : chainList s n p = some l) :
    l.length ≤ s.length := by
  have hnd := chainList_nodup s n p l h
  have hsub : l ⊆ s.map (fun e => e.id) := by
    intro x hx
    obtain ⟨e, hf, hid⟩ := chainList_mem_entry s n p l h x hx
    have he : e ∈ s := List.mem_of_find?_eq_some hf
    exact List.mem_map.mpr ⟨e, he, hid⟩
  have := (List.subperm_of_subset hnd hsub).length_le
  simpa using this

/-- If the exact walk sees `t` at some fuel, the conservative walk reports
`t` at every fuel. -/
theorem chainHasIdC_of_chainHasId (s : Store) :
    ∀ (n : Nat) (p : Option String) (t : String),
      chainHasId s n p t = true → ∀ m, chainHasIdC s m p t = true := by
  intro n
  induction n with
  | zero => intro p t h; cases p <;> simp [chainHasId] at h
  | succ n ih =>
    intro p t h m
    cases p with
    | none => simp [chainHasId] at h
    | some q =>
      cases m with
      | zero => simp [chainHasIdC]
      | succ m =>
        simp only [chainHasId, Bool.or_eq_true] at h
        simp only [chainHasIdC, Bool.or_eq_true]
        rcases h with h | h
        · exact Or.inl h
        · right
          cases hf : jsFind s q with
          | none => rw [hf] at h; simp at h
          | some e =>
            rw [hf] at h
            exact ih e.parent_id t h m

/-- If the conservative walk at any fuel does not see `t`, then `t` is not
on the (root-reaching) chain. -/
theorem chainHasIdC_false_not_mem (s : Store) :
    ∀ (n : Nat) (p : Option String) (t : String),
      chainHasIdC s n p t = false →
      ∀ (m : Nat) (l : List String), chainList s m p = some l → t ∉ l := by
  intro n
  induction n with
  | zero =>
    intro p t h m l hl
    cases p with
    | none =>
      cases m <;> (simp [chainList] at hl; subst hl; simp)
    | some q => simp [chainHasIdC] at h
  | succ n ih =>
    intro p t h m l hl
    cases p with
    | none =>
      cases m <;> (simp [chainList] at hl; subst hl; simp)
    | some q =>
      simp only [chainHasIdC, Bool.or_eq_false_iff] at h
      obtain ⟨hqt, hrest⟩ := h
      cases m with
      | zero => simp [chainList] at hl
      | succ m =>
        simp only [chainList] at hl
        cases hf : jsFind s q with
        | none => rw [hf] at hl; simp at hl
        | some e =>
          rw [hf] at hl
          simp only [Option.map_eq_some'] at hl
          obtain ⟨l', hl', rfl⟩ := hl
          rw [hf] at hrest
          intro hmem
          rcases List.mem_cons.mp hmem with rfl | hmem'
          · simp at hqt
          · exact ih e.parent_id t hrest m l' hl' hmem'

/-- If `t` is not on a root-reaching chain, the conservative walk with fuel
at least the chain length reports `false`. -/
theorem chainHasIdC_false_of_chainList (s : Store) :
    ∀ (m : Nat) (p : Option String) (l : List String) (t : String) (n : Nat),
      chainList s m p = some l → t ∉ l → l.length ≤ n →
      chainHasIdC s n p t = false := by
  intro m
  induction m with
  | zero =>
    intro p l t n hl _ _
    cases p with
    | none =>
      simp [chainList] at hl; subst hl
      cases n <;> simp [chainHasIdC]
    | some q => simp [chainList] at hl
  | succ m ih =>
    intro p l t n hl hnm hlen
    cases p with
    | none =>
      simp [chainList] at hl; subst hl
      cases n <;> simp [chainHasIdC]
    | some q =>
      simp only [chainList] at hl
      cases hf : jsFind s q with
      | none => rw [hf] at hl; simp at hl
      | some e =>
        rw [hf] at hl
        simp only [Option.map_eq_some'] at hl
        obtain ⟨l', hl', rfl⟩ := hl
        cases n with
        | zero => simp at hlen
        | succ n =>
          simp only [chainHasIdC, hf, Bool.or_eq_false_iff]
          constructor
          · simp only [beq_eq_false_iff_ne, ne_eq]
            intro hq; subst hq; exact hnm (List.mem_cons_self q l')
          · exact ih e.parent_id l' t n hl'
              (fun hx => hnm (List.mem_cons_of_mem q hx)) (by simp at hlen; omega)

/-- Membership in the root-reaching chain gives an exact-walk hit. -/
theorem chainHasId_of_mem (s : Store) :
    ∀ (n : Nat) (p : Option String) (l : List String) (x : String),
      chainList s n p = some l → x ∈ l → chainHasId s n p x = true := by
  intro n
  induction n with
  | zero =>
    intro p l x h hx
    cases p with
    | none => simp [chainList] at h; subst h; simp at hx
    | some q => simp [chainList] at h
  | succ n ih =>
    intro p l x h hx
    cases p with
    | none => simp [chainList] at h; subst h; simp at hx
    | some q =>
      simp only [chainList] at h
      cases hf : jsFind s q with
      | none => rw [hf] at h; simp at h
      | some e =>
        rw [hf] at h
        simp only [Option.map_eq_some'] at h
        obtain ⟨l', hl', rfl⟩ := h
        simp only [chainHasId, hf, Bool.or_eq_true]
        rcases List.mem_cons.mp hx with rfl | hx'
        · left; simp
        · right; exact ih e.parent_id l' x hl' hx'

/-- An exact-walk hit lies on the root-reaching chain. -/
theorem mem_of_chainHasId (s : Store) :
    ∀ (n : Nat) (p : Option String) (x : String),
      chainHasId s n p x = true →
      ∀ (m : Nat) (l : List String), chainList s m p = some l → x ∈ l := by
  intro n
  induction n with
  | zero => intro p x h; cases p <;> simp [chainHasId] at h
  | succ n ih =>
    intro p x h m l hl
    cases p with
    | none => simp [chainHasId] at h
    | some q =>
      simp only [chainHasId, Bool.or_eq_true] at h
      cases m with
      | zero => simp [chainList] at hl
      | succ m =>
        simp only [chainList] at hl
        cases hf : jsFind s q with
        | none => rw [hf] at hl; simp at hl
        | some e =>
          rw [hf] at hl
          simp only [Option.map_eq_some'] at hl
          obtain ⟨l', hl', rfl⟩ := hl
          rcases h with h | h
          · rw [← beq_iff_eq.mp h]; exact List.mem_cons_self q l'
          · rw [hf] at h
            exact List.mem_cons_of_mem q (ih e.parent_id x h m l' hl')

theorem jsFind_map (s : Store) (f : Entry → Entry)
    (hid : ∀ e, (f e).id = e.id) (x : String) :
    jsFind (s.map f) x = (jsFind s x).map f := by
  unfold jsFind
  rw [List.find?_map]
  have hfun : ((fun e : Entry => e.id == x) ∘ f) = (fun e : Entry => e.id == x) := by
    funext e
    simp [Function.comp, hid]
  rw [hfun]

/-- A map that keeps both `id` and `parent_id` leaves every chain alone. -/
theorem chainList_map_keep (s : Store) (f : Entry → Entry)
    (hid : ∀ e, (f e).id = e.id) (hpar : ∀ e, (f e).parent_id = e.parent_id) :
    ∀ (n : Nat) (p : Option String),
      chainList (s.map f) n p = chainList s n p := by
  intro n
  induction n with
  | zero => intro p; cases p <;> simp [chainList]
  | succ n ih =>
    intro p
    cases p with
    | none => simp [chainList]
    | some q =>
      simp only [chainList, jsFind_map s f hid]
      cases hf : jsFind s q with
      | none => simp
      | some e => simp [hpar, ih]

/-- Reparenting the entry `a` leaves every chain that avoids `a` alone. -/
theorem chainList_updateParent_avoid (s : Store) (a : String) (nb : Option String) :
    ∀ (n : Nat) (p : Option String) (l : List String),
      chainList s n p = some l → a ∉ l →
      chainList (s.map (fun e => if e.id == a then { e with parent_id := nb } else e)) n p
        = some l := by
  intro n
  induction n with
  | zero =>
    intro p l h _
    cases p with
    | none => simpa [chainList] using h
    | some q => simp [chainList] at h
  | succ n ih =>
    intro p l h hav
    cases p with
    | none => simpa [chainList] using h
    | some q =>
      have hfmap := jsFind_map s
        (fun e => if e.id == a then { e with parent_id := nb } else e)
        (fun e => by by_cases hc : (e.id == a) = true <;> simp [hc]) q
      simp only [chainList] at h ⊢
      rw [hfmap]
      cases hf : jsFind s q with
      | none => rw [hf] at h; simp at h
      | some e =>
        rw [hf] at h
        simp only [Option.map_eq_some'] at h
        obtain ⟨l', hl', rfl⟩ := h
        have hqa : q ≠ a := fun hq => hav (hq ▸ List.mem_cons_self q l')
        have heq : e.id = q := by simpa using List.find?_some hf
        have hfe : (if e.id == a then { e with parent_id := nb } else e) = e := by
          rw [heq]; simp [hqa]
        simp only [Option.map_some', hfe]
        have hrec := ih e.parent_id l' hl' (fun hx => hav (List.mem_cons_of_mem q hx))
        rw [hrec]
        rfl

/-- Appending a new entry leaves every root-reaching chain alone. -/
theorem chainList_append (s : Store) (new : Entry) :
    ∀ (n : Nat) (p : Option String) (l : List String),
      chainList s n p = some l → chainList (s ++ [new]) n p = some l := by
  intro n
  induction n with
  | zero =>
    intro p l h
    cases p with
    | none => simpa [chainList] using h
    | some q => simp [chainList] at h
  | succ n ih =>
    intro p l h
    cases p with
    | none => simpa [chainList] using h
    | some q =>
      simp only [chainList] at h ⊢
      cases hf : jsFind s q with
      | none => rw [hf] at h; simp at h
      | some e =>
        rw [hf] at h
        simp only [Option.map_eq_some'] at h
        obtain ⟨l', hl', rfl⟩ := h
        have hf' : jsFind (s ++ [new]) q = some e := by
          unfold jsFind at hf ⊢
          rw [List.find?_append, hf]
          rfl
        rw [hf']
        simp [ih e.parent_id l' hl']

theorem jsFind_filter (s : Store) (keep : Entry → Bool) (x : String) (e : Entry)
    (hf : jsFind s x = some e) (hk : keep e = true) :
    jsFind (s.filter keep) x = some e := by
  unfold jsFind at hf ⊢
  induction s with
  | nil => simp at hf
  | cons h t ih =>
    simp only [List.find?] at hf
    rcases hh : (h.id == x) with _ | _
    · rw [hh] at hf
      simp only [List.filter_cons]
      split
      · simp only [List.find?, hh]
        exact ih hf
      · exact ih hf
    · rw [hh] at hf
      have hhe : h = e := Option.some.inj hf
      subst hhe
      simp only [List.filter_cons, hk, if_pos]
      simp [List.find?, hh]

/-- Filtering out entries leaves alone every chain whose members are all
kept. -/
theorem chainList_filter (s : Store) (keep : Entry → Bool) :
    ∀ (n : Nat) (p : Option String) (l : List String),
      chainList s n p = some l →
      (∀ x ∈ l, ∀ e, jsFind s x = some e → keep e = true) →
      chainList (s.filter keep) n p = some l := by
  intro n
  induction n with
  | zero =>
    intro p l h _
    cases p with
    | none => simpa [chainList] using h
    | some q => simp [chainList] at h
  | succ n ih =>
    intro p l h hkeep
    cases p with
    | none => simpa [chainList] using h
    | some q =>
      simp only [chainList] at h ⊢
      cases hf : jsFind s q with
      | none => rw [hf] at h; simp at h
      | some e =>
        rw [hf] at h
        simp only [Option.map_eq_some'] at h
        obtain ⟨l', hl', rfl⟩ := h
        have hk := hkeep q (List.mem_cons_self q l') e hf
        rw [jsFind_filter s keep q e hf hk]
        have := ih e.parent_id l' hl'
          (fun x hx ex hex => hkeep x (List.mem_cons_of_mem q hx) ex hex)
        simp [this]

/-- The error kinds of §7 of the design, plus the transport-level failure
carrying the HTTP status the axios layer reports. -/
inductive Err where
  | NotFound
  | InvalidParent
  | InvalidName
  | CyclicMove
  | DuplicateTag
  | TagNotFound
  | HttpError (status : Nat)
deriving DecidableEq, Repr

/-- The whitespace class of JavaScript `String.prototype.trim` (ASCII part). -/
def jsIsWs (c : Char) : Bool :=
  c == ' ' || c == '\t' || c == '\n' || c == '\r' || c == '\x0b' || c == '\x0c'

/-- JavaScript `str.trim()`: strip leading and trailing whitespace. -/
def jsTrim (x : String) : String :=
  String.mk (((x.data.dropWhile jsIsWs).reverse.dropWhile jsIsWs).reverse)

/-- JavaScript `c.toLowerCase()` on a single ASCII character. -/
def jsLowerChar (c : Char) : Char :=
  if 65 ≤ c.toNat ∧ c.toNat ≤ 90 then Char.ofNat (c.toNat + 32) else c

/-- JavaScript `str.toLowerCase()` (ASCII part). -/
def jsToLower (x : String) : String :=
  String.mk (x.data.map jsLowerChar)

theorem jsTrim_of_all_ws (x : String) (h : ∀ c ∈ x.data, jsIsWs c = true) :
    jsTrim x = "" := by
  unfold jsTrim
  have h1 : x.data.dropWhile jsIsWs = [] := List.dropWhile_eq_nil_iff.mpr h
  rw [h1]
  rfl

theorem jsLowerChar_toNat (c : Char) :
    (jsLowerChar c).toNat =
      if 65 ≤ c.toNat ∧ c.toNat ≤ 90 then c.toNat + 32 else c.toNat := by
  unfold jsLowerChar
  split
  case isTrue h =>
    unfold Char.ofNat
    rw [dif_pos (Or.inl (by omega))]
    rfl
  case isFalse h => rfl

theorem jsLowerChar_not_upper (c : Char) :
    ¬(65 ≤ (jsLowerChar c).toNat ∧ (jsLowerChar c).toNat ≤ 90) := by
  rw [jsLowerChar_toNat]
  split
  case isTrue h => omega
  case isFalse h => omega

theorem jsLowerChar_idem (c : Char) : jsLowerChar (jsLowerChar c) = jsLowerChar c := by
  have h1 : jsLowerChar (jsLowerChar c) =
      if 65 ≤ (jsLowerChar c).toNat ∧ (jsLowerChar c).toNat ≤ 90 then
        Char.ofNat ((jsLowerChar c).toNat + 32)
      else jsLowerChar c := rfl
  rw [h1, if_neg (jsLowerChar_not_upper c)]

theorem jsToLower_idem (x : String) : jsToLower (jsToLower x) = jsToLower x := by
  show String.mk ((x.data.map jsLowerChar).map jsLowerChar) = String.mk (x.data.map jsLowerChar)
  refine congrArg String.mk ?_
  rw [List.map_map]
  exact List.map_congr_left (fun a _ => jsLowerChar_idem a)

theorem jsToLower_eq_empty_iff (x : String) : jsToLower x = "" ↔ x = "" := by
  constructor
  · intro h
    have hx : x.data = [] := by
      have h2 : x.data.map jsLowerChar = [] := congrArg String.data h
      simpa using h2
    cases x with
    | mk d =>
      simp only at hx
      subst hx
      rfl
  · intro h
    subst h
    rfl

end Citrus

namespace Citrus

/-- Modelled from the spec: `listChildren(owner_id, parent_id)` of the
FileSystemStore.  The FastAPI backend (`Backend/app/main.py`) that serves
`GET /file-system/` is not among the sources; per §4.1 it returns the
entries whose owner matches and whose `parent_id` equals the given value,
`null` included. -/
def listChildren (s : Store) (owner : String) (pid : Option String) : List Entry :=
  s.filter (fun e => e.owner == owner && e.parent_id == pid)

/-- Reparent one entry, leaving every other field and entry alone (the
effect of a successful `moveEntry` per §4.1). -/
def updateParent (s : Store) (a : String) (nb : Option String) : Store :=
  s.map (fun e => if e.id == a then { e with parent_id := nb } else e)

/-- Modelled from the spec: `moveEntry(entry_id, new_parent_id)` of the
FileSystemStore (§4.1); the backend implementation is not among the
sources.  It fails `NotFound` on an unknown entry, walks the ancestor chain
from `new_parent_id` up to root and fails `CyclicMove` when the walk meets
`entry_id` (or cannot be bounded), fails `InvalidParent` when the new parent
is not an existing folder of the same owner, and otherwise reparents just
the one entry.  `new_parent_id = null` means "move to root". -/
def moveEntry (s : Store) (entry_id : String) (new_parent_id : Option String) :
    Except Err Store :=
  match jsFind s entry_id with
  | none => Except.error Err.NotFound
  | some ent =>
    match new_parent_id with
    | none => Except.ok (updateParent s entry_id none)
    | some b =>
      if chainHasIdC s s.length (some b) entry_id then Except.error Err.CyclicMove
      else
        match jsFind s b with
        | none => Except.error Err.InvalidParent
        | some pe =>
          if pe.is_folder && (pe.owner == ent.owner) then
            Except.ok (updateParent s entry_id (some b))
          else Except.error Err.InvalidParent

/-- The store's id generator: a string strictly longer than every id
already present, hence fresh. -/
def freshId (s : Store) : String :=
  (s.map (fun e => e.id)).foldr (fun a b => a ++ b) "x"

/-- Modelled from the spec: `createEntry(owner_id, name, is_folder,
parent_id, tags, content_ref?)` of the FileSystemStore (§4.1); the backend
implementation is not among the sources.  The entry is persisted with a
store-generated fresh id; the `created_at` clock reading is a parameter. -/
def createEntry (s : Store) (owner name : String) (is_folder : Bool)
    (parent : Option String) (tags : List String) (content : Option String)
    (now : Nat) : Except Err Store :=
  if jsTrim name = "" then Except.error Err.InvalidName
  else
    match parent with
    | none =>
      Except.ok (s ++ [⟨freshId s, owner, name, is_folder, none, false, tags, now, content⟩])
    | some p =>
      match jsFind s p with
      | none => Except.error Err.InvalidParent
      | some pe =>
        if pe.is_folder && (pe.owner == owner) then
          Except.ok (s ++ [⟨freshId s, owner, name, is_folder, some p, false, tags, now, content⟩])
        else Except.error Err.InvalidParent

/-- Modelled from the spec: `renameEntry(entry_id, new_name)` (§4.1); the
backend implementation is not among the sources.  Pure metadata mutation. -/
def renameEntry (s : Store) (entry_id new_name : String) : Except Err Store :=
  match jsFind s entry_id with
  | none => Except.error Err.NotFound
  | some _ =>
    if jsTrim new_name = "" then Except.error Err.InvalidName
    else Except.ok (s.map (fun e => if e.id == entry_id then { e with name := new_name } else e))

/-- Modelled from the spec: `deleteEntry(entry_id)` (§4.1); the backend
implementation is not among the sources.  Removes the entry together with
its full descendant subtree (members recognised by their upward chain
meeting `entry_id`). -/
def deleteEntry (s : Store) (entry_id : String) : Except Err Store :=
  match jsFind s entry_id with
  | none => Except.error Err.NotFound
  | some _ =>
    Except.ok (s.filter (fun e => !(chainHasIdC s s.length (some e.id) entry_id)))

/-- Modelled from the spec: `setStarred(entry_id, starred)` (§4.1); the
backend implementation is not among the sources.  No cascading effect on
descendants at write time. -/
def setStarred (s : Store) (entry_id : String) (b : Bool) : Except Err Store :=
  match jsFind s entry_id with
  | none => Except.error Err.NotFound
  | some _ =>
    Except.ok (s.map (fun e => if e.id == entry_id then { e with is_starred := b } else e))

/-- `handleAddTag` of the Library screen, embedded from the source: rejects
an empty tag name, lowercases the item's current tags, rejects a duplicate
(case-insensitive) with the "This tag already exists" conflict, otherwise
appends the lowercased trimmed tag. -/
def handleAddTag (tags : List String) (newTag : String) : Except Err (List String) :=
  if jsTrim newTag = "" then Except.error Err.InvalidName
  else
    let currentTags := tags.map jsToLower
    let newTagLower := jsToLower (jsTrim newTag)
    if currentTags.contains newTagLower then Except.error Err.DuplicateTag
    else Except.ok (currentTags ++ [newTagLower])

/-- `handleDeleteTag` of the Library screen, embedded from the source:
refuses with "No tags to delete" when the item has no tags at all,
otherwise removes the tags strictly equal to `tag`
(`item.tags.filter(t => t !== tag)`). -/
def handleDeleteTag (tags : List String) (tag : String) : Except Err (List String) :=
  if tags.isEmpty then Except.error Err.NotFound
  else Except.ok (tags.filter (fun t => !(t == tag)))

/-- The store-side effect of a tags update (`PUT /file-system/{id}` with a
tags body); the backend implementation is not among the sources, modelled
from the spec as a pointwise field replacement. -/
def addTag (s : Store) (entry_id tag : String) : Except Err Store :=
  match jsFind s entry_id with
  | none => Except.error Err.NotFound
  | some ent =>
    match handleAddTag ent.tags tag with
    | Except.error e => Except.error e
    | Except.ok ts =>
      Except.ok (s.map (fun e => if e.id == entry_id then { e with tags := ts } else e))

/-- Store-side removal of a tag, driven by the client's `handleDeleteTag`
computation; the backend applies the resulting tags list verbatim. -/
def removeTag (s : Store) (entry_id tag : String) : Except Err Store :=
  match jsFind s entry_id with
  | none => Except.error Err.NotFound
  | some ent =>
    match handleDeleteTag ent.tags tag with
    | Except.error e => Except.error e
    | Except.ok ts =>
      Except.ok (s.map (fun e => if e.id == entry_id then { e with tags := ts } else e))

/-- One user-issued mutation of the store (§4.1's operation set). -/
inductive Op where
  | create (owner name : String) (is_folder : Bool) (parent : Option String)
      (tags : List String) (content : Option String) (now : Nat)
  | rename (entry_id new_name : String)
  | move (entry_id : String) (new_parent : Option String)
  | delete (entry_id : String)
  | star (entry_id : String) (b : Bool)
  | addTag (entry_id tag : String)
  | removeTag (entry_id tag : String)
deriving Repr

def applyOp (s : Store) : Op → Except Err Store
  | Op.create o n f p t c ts => createEntry s o n f p t c ts
  | Op.rename i n => renameEntry s i n
  | Op.move i p => moveEntry s i p
  | Op.delete i => deleteEntry s i
  | Op.star i b => setStarred s i b
  | Op.addTag i t => addTag s i t
  | Op.removeTag i t => removeTag s i t

/-- Run a sequence of operations; a failed operation leaves the store as it
was (the error is reported to the client and nothing is applied). -/
def applyOps (s : Store) : List Op → Store
  | [] => s
  | op :: rest =>
    applyOps (match applyOp s op with | Except.ok t => t | Except.error _ => s) rest

/-- Unique ids: part of the data model (`id` is a unique identity). -/
def NodupIds (s : Store) : Prop :=
  (s.map (fun e => e.id)).Nodup

theorem foldr_append_len (l : List String) :
    1 ≤ (l.foldr (fun a b => a ++ b) "x").length ∧
      ∀ x ∈ l, x.length < (l.foldr (fun a b => a ++ b) "x").length := by
  induction l with
  | nil => exact ⟨by decide, by simp⟩
  | cons a l ih =>
    obtain ⟨h1, h2⟩ := ih
    constructor
    · simp only [List.foldr_cons, String.length_append]
      omega
    · intro x hx
      rcases List.mem_cons.mp hx with rfl | hx'
      · simp only [List.foldr_cons, String.length_append]
        omega
      · have := h2 x hx'
        simp only [List.foldr_cons, String.length_append]
        omega

theorem freshId_ne (s : Store) (e : Entry) (he : e ∈ s) : e.id ≠ freshId s := by
  intro h
  have hmem : e.id ∈ s.map (fun e => e.id) := List.mem_map.mpr ⟨e, he, rfl⟩
  have := (foldr_append_len (s.map (fun e => e.id))).2 e.id hmem
  have hlen : e.id.length = (freshId s).length := congrArg String.length h
  unfold freshId at hlen
  omega

/-- With unique ids, looking up an entry's own id finds it. -/
theorem jsFind_of_mem_nodup (s : Store) (e : Entry) (he : e ∈ s)
    (hnd : NodupIds s) : jsFind s e.id = some e := by
  unfold jsFind
  unfold NodupIds at hnd
  induction s with
  | nil => simp at he
  | cons h t ih =>
    rcases List.mem_cons.mp he with rfl | he'
    · simp [List.find?]
    · have hne : (h.id == e.id) = false := by
        simp only [List.map_cons, List.nodup_cons] at hnd
        have : e.id ∈ t.map (fun e => e.id) := List.mem_map.mpr ⟨e, he', rfl⟩
        simp only [beq_eq_false_iff_ne, ne_eq]
        intro hc
        exact hnd.1 (hc ▸ this)
      simp only [List.find?, hne]
      exact ih he' (by
        simp only [List.map_cons, List.nodup_cons] at hnd
        exact hnd.2)

theorem jsFind_mem (s : Store) (x : String) (e : Entry) (h : jsFind s x = some e) :
    e ∈ s ∧ e.id = x :=
  ⟨List.mem_of_find?_eq_some h, by simpa using List.find?_some h⟩

theorem jsFind_append_left (s : Store) (new : Entry) (x : String) (e : Entry)
    (h : jsFind s x = some e) : jsFind (s ++ [new]) x = some e := by
  unfold jsFind at h ⊢
  rw [List.find?_append, h]
  rfl

theorem reaches_step (s : Store) (p : String) (e : Entry) (n : Nat)
    (hf : jsFind s p = some e) (h : chainReachesRoot s n e.parent_id = true) :
    chainReachesRoot s (n + 1) (some p) = true := by
  simp [chainReachesRoot, hf, h]

/-- An acyclic store yields an explicit root-reaching chain for each
member entry. -/
theorem acyclic_chainList (s : Store) (h : Acyclic s) (e : Entry) (he : e ∈ s) :
    ∃ (m : Nat) (l : List String), chainList s m e.parent_id = some l := by
  obtain ⟨n, hn⟩ := h e he
  have := chainList_isSome_iff_reaches s n e.parent_id
  rw [hn] at this
  obtain ⟨l, hl⟩ := Option.isSome_iff_exists.mp this
  exact ⟨n, l, hl⟩

theorem reaches_of_chainList (s : Store) (m : Nat) (p : Option String)
    (l : List String) (h : chainList s m p = some l) :
    chainReachesRoot s m p = true := by
  have := chainList_isSome_iff_reaches s m p
  rw [h] at this
  simpa using this.symm

/-- Maps that keep `id` and `parent_id` preserve acyclicity. -/
theorem acyclic_map_keep (s : Store) (f : Entry → Entry)
    (hid : ∀ e, (f e).id = e.id) (hpar : ∀ e, (f e).parent_id = e.parent_id)
    (h : Acyclic s) : Acyclic (s.map f) := by
  intro e' he'
  obtain ⟨e, he, rfl⟩ := List.mem_map.mp he'
  obtain ⟨n, hn⟩ := h e he
  refine ⟨n, ?_⟩
  rw [hpar]
  have hiff := chainList_isSome_iff_reaches (s.map f) n e.parent_id
  rw [chainList_map_keep s f hid hpar n e.parent_id] at hiff
  rw [← hiff, chainList_isSome_iff_reaches s n e.parent_id, hn]

theorem nodupIds_map_keep (s : Store) (f : Entry → Entry)
    (hid : ∀ e, (f e).id = e.id) (h : NodupIds s) : NodupIds (s.map f) := by
  unfold NodupIds at h ⊢
  rw [List.map_map]
  have : ((fun e : Entry => e.id) ∘ f) = (fun e : Entry => e.id) := by
    funext e; simp [Function.comp, hid]
  rw [this]
  exact h

/-- Appending an entry whose parent link is valid preserves acyclicity. -/
theorem acyclic_append (s : Store) (new : Entry) (h : Acyclic s)
    (hpar : new.parent_id = none ∨
      ∃ (p : String) (pe : Entry), new.parent_id = some p ∧ jsFind s p = some pe) :
    Acyclic (s ++ [new]) := by
  intro e' he'
  rcases List.mem_append.mp he' with he | hnew
  · obtain ⟨m, l, hl⟩ := acyclic_chainList s h e' he
    exact ⟨m, reaches_of_chainList _ m _ l (chainList_append s new m e'.parent_id l hl)⟩
  · have he2 : e' = new := by simpa using hnew
    rw [he2]
    rcases hpar with hn | ⟨p, pe, hp, hf⟩
    · exact ⟨0, by rw [hn]; rfl⟩
    · obtain ⟨hpe, _⟩ := jsFind_mem s p pe hf
      obtain ⟨m, l, hl⟩ := acyclic_chainList s h pe hpe
      have hl' := chainList_append s new m pe.parent_id l hl
      refine ⟨m + 1, ?_⟩
      rw [hp]
      exact reaches_step _ p pe m (jsFind_append_left s new p pe hf)
        (reaches_of_chainList _ m _ l hl')

theorem nodupIds_append (s : Store) (new : Entry) (h : NodupIds s)
    (hfresh : new.id = freshId s) : NodupIds (s ++ [new]) := by
  unfold NodupIds at h ⊢
  rw [List.map_append]
  simp only [List.map_cons, List.map_nil]
  rw [List.nodup_append]
  refine ⟨h, List.nodup_singleton _, ?_⟩
  intro x hx hy
  simp only [List.mem_singleton] at hy
  subst hy
  obtain ⟨e, he, hid⟩ := List.mem_map.mp hx
  exact freshId_ne s e he (hid.trans hfresh)

/-- Composition step for reparenting: once the new parent pid reaches the
root in the updated store, every chain of the original store reaches the
root in the updated store as well. -/
theorem chainList_update_reaches (s : Store) (a : String) (nb : Option String)
    (hb : ∃ fb, chainReachesRoot (updateParent s a nb) fb nb = true) :
    ∀ (n : Nat) (p : Option String) (l : List String),
      chainList s n p = some l →
      ∃ g, chainReachesRoot (updateParent s a nb) g p = true := by
  intro n
  induction n with
  | zero =>
    intro p l h
    cases p with
    | none => exact ⟨0, rfl⟩
    | some q => simp [chainList] at h
  | succ n ih =>
    intro p l h
    cases p with
    | none => exact ⟨0, rfl⟩
    | some q =>
      simp only [chainList] at h
      cases hf : jsFind s q with
      | none => rw [hf] at h; simp at h
      | some e =>
        rw [hf] at h
        simp only [Option.map_eq_some'] at h
        obtain ⟨l', hl', rfl⟩ := h
        have hfq : jsFind (updateParent s a nb) q =
            some (if e.id == a then { e with parent_id := nb } else e) := by
          unfold updateParent
          rw [jsFind_map s _ (fun e => by by_cases hc : (e.id == a) = true <;> simp [hc]), hf]
          rfl
        by_cases hqa : (e.id == a) = true
        · obtain ⟨fb, hfb⟩ := hb
          refine ⟨fb + 1, ?_⟩
          rw [if_pos hqa] at hfq
          exact reaches_step _ q _ fb hfq hfb
        · rw [if_neg hqa] at hfq
          obtain ⟨g, hg⟩ := ih e.parent_id l' hl'
          exact ⟨g + 1, reaches_step _ q e g hfq hg⟩

/-- Reparenting preserves acyclicity provided the new parent pid reaches
the root in the updated store. -/
theorem acyclic_updateParent_of (s : Store) (a : String) (nb : Option String)
    (hb : ∃ fb, chainReachesRoot (updateParent s a nb) fb nb = true)
    (h : Acyclic s) : Acyclic (updateParent s a nb) := by
  intro e' he'
  obtain ⟨e, he, rfl⟩ := List.mem_map.mp he'
  by_cases hqa : (e.id == a) = true
  · obtain ⟨fb, hfb⟩ := hb
    refine ⟨fb, ?_⟩
    rw [if_pos hqa]
    exact hfb
  · rw [if_neg hqa]
    obtain ⟨m, l, hl⟩ := acyclic_chainList s h e he
    exact chainList_update_reaches s a nb hb m e.parent_id l hl

/-- The successful `moveEntry` guard makes the new parent's chain reach the
root in the updated store. -/
theorem move_target_reaches (s : Store) (a b : String) (pe : Entry)
    (hA : Acyclic s) (hf : jsFind s b = some pe)
    (hguard : chainHasIdC s s.length (some b) a = false) :
    ∃ fb, chainReachesRoot (updateParent s a (some b)) fb (some b) = true := by
  obtain ⟨hpe, hpid⟩ := jsFind_mem s b pe hf
  obtain ⟨m, l, hl⟩ := acyclic_chainList s hA pe hpe
  have hfull : chainList s (m + 1) (some b) = some (b :: l) := by
    simp [chainList, hf, hl]
  have hnotmem : a ∉ (b :: l) :=
    chainHasIdC_false_not_mem s s.length (some b) a hguard (m + 1) (b :: l) hfull
  have htrans := chainList_updateParent_avoid s a (some b) (m + 1) (some b) (b :: l)
    hfull hnotmem
  exact ⟨m + 1, reaches_of_chainList _ (m + 1) (some b) (b :: l) htrans⟩

/-- Cascading delete preserves acyclicity (unique ids assumed, as ids are). -/
theorem acyclic_delete_filter (s : Store) (d : String)
    (hA : Acyclic s) (hnd : NodupIds s) :
    Acyclic (s.filter (fun e => !(chainHasIdC s s.length (some e.id) d))) := by
  intro e' he'
  rw [List.mem_filter] at he'
  obtain ⟨he, hkeep⟩ := he'
  have hguard : chainHasIdC s s.length (some e'.id) d = false := by
    simpa using hkeep
  have hself : jsFind s e'.id = some e' := jsFind_of_mem_nodup s e' he hnd
  obtain ⟨m, l, hl⟩ := acyclic_chainList s hA e' he
  have hfull : chainList s (m + 1) (some e'.id) = some (e'.id :: l) := by
    simp [chainList, hself, hl]
  have hdnot : d ∉ (e'.id :: l) :=
    chainHasIdC_false_not_mem s s.length (some e'.id) d hguard (m + 1) (e'.id :: l) hfull
  have hkeepall : ∀ x ∈ l, ∀ ex, jsFind s x = some ex →
      (fun e => !(chainHasIdC s s.length (some e.id) d)) ex = true := by
    intro x hx ex hex
    obtain ⟨mx, lx, hmx, hsuf⟩ :=
      chainList_mem_suffix s (m + 1) (some e'.id) (e'.id :: l) hfull x
        (List.mem_cons_of_mem _ hx)
    have hdnot' : d ∉ (x :: lx) := fun hc => hdnot (hsuf.subset hc)
    have hlen : (x :: lx).length ≤ s.length :=
      chainList_length_le s mx (some x) (x :: lx) hmx
    have hexid : ex.id = x := (jsFind_mem s x ex hex).2
    have := chainHasIdC_false_of_chainList s mx (some x) (x :: lx) d s.length hmx
      hdnot' hlen
    simp only [hexid]
    simp [this]
  have htrans := chainList_filter s (fun e => !(chainHasIdC s s.length (some e.id) d))
    m e'.parent_id l hl hkeepall
  exact ⟨m, reaches_of_chainList _ m _ l htrans⟩

theorem nodupIds_filter (s : Store) (keep : Entry → Bool) (h : NodupIds s) :
    NodupIds (s.filter keep) := by
  unfold NodupIds at h ⊢
  have hs : (s.filter keep).Sublist s := List.filter_sublist s
  exact (hs.map (fun e => e.id)).nodup h

/-- Every single store operation preserves the no-cycles invariant and the
uniqueness of ids. -/
theorem applyOp_preserves (s : Store) (op : Op) (t : Store)
    (h : applyOp s op = Except.ok t) (hA : Acyclic s) (hnd : NodupIds s) :
    Acyclic t ∧ NodupIds t := by
  cases op with
  | create o n f p tg c ts =>
    simp only [applyOp] at h
    unfold createEntry at h
    split at h
    · simp at h
    · cases p with
      | none =>
        simp only [Except.ok.injEq] at h
        subst h
        exact ⟨acyclic_append s _ hA (Or.inl rfl), nodupIds_append s _ hnd rfl⟩
      | some q =>
        dsimp only at h
        cases hf : jsFind s q with
        | none => rw [hf] at h; simp at h
        | some pe =>
          rw [hf] at h
          dsimp only at h
          split at h
          · simp only [Except.ok.injEq] at h
            subst h
            exact ⟨acyclic_append s _ hA (Or.inr ⟨q, pe, rfl, hf⟩),
              nodupIds_append s _ hnd rfl⟩
          · simp at h
  | rename i n =>
    simp only [applyOp] at h
    unfold renameEntry at h
    cases hf : jsFind s i with
    | none => rw [hf] at h; simp at h
    | some _ =>
      rw [hf] at h
      dsimp only at h
      split at h
      · simp at h
      · simp only [Except.ok.injEq] at h
        subst h
        refine ⟨acyclic_map_keep s _ ?_ ?_ hA, nodupIds_map_keep s _ ?_ hnd⟩ <;>
          (intro e; by_cases hc : (e.id == i) = true <;> simp [hc])
  | move i p =>
    simp only [applyOp] at h
    unfold moveEntry at h
    cases hf : jsFind s i with
    | none => rw [hf] at h; simp at h
    | some ent =>
      rw [hf] at h
      dsimp only at h
      cases p with
      | none =>
        simp only [Except.ok.injEq] at h
        subst h
        refine ⟨acyclic_updateParent_of s i none ⟨0, rfl⟩ hA, ?_⟩
        exact nodupIds_map_keep s _
          (fun e => by by_cases hc : (e.id == i) = true <;> simp [hc]) hnd
      | some b =>
        dsimp only at h
        split at h
        · simp at h
        next hguard =>
          cases hfb : jsFind s b with
          | none => rw [hfb] at h; simp at h
          | some pe =>
            rw [hfb] at h
            dsimp only at h
            split at h
            · simp only [Except.ok.injEq] at h
              subst h
              refine ⟨acyclic_updateParent_of s i (some b)
                (move_target_reaches s i b pe hA hfb (by simpa using hguard)) hA, ?_⟩
              exact nodupIds_map_keep s _
                (fun e => by by_cases hc : (e.id == i) = true <;> simp [hc]) hnd
            · simp at h
  | delete i =>
    simp only [applyOp] at h
    unfold deleteEntry at h
    cases hf : jsFind s i with
    | none => rw [hf] at h; simp at h
    | some _ =>
      rw [hf] at h
      dsimp only at h
      simp only [Except.ok.injEq] at h
      subst h
      exact ⟨acyclic_delete_filter s i hA hnd, nodupIds_filter s _ hnd⟩
  | star i b =>
    simp only [applyOp] at h
    unfold setStarred at h
    cases hf : jsFind s i with
    | none => rw [hf] at h; simp at h
    | some _ =>
      rw [hf] at h
      dsimp only at h
      simp only [Except.ok.injEq] at h
      subst h
      refine ⟨acyclic_map_keep s _ ?_ ?_ hA, nodupIds_map_keep s _ ?_ hnd⟩ <;>
        (intro e; by_cases hc : (e.id == i) = true <;> simp [hc])
  | addTag i tg =>
    simp only [applyOp] at h
    unfold addTag at h
    cases hf : jsFind s i with
    | none => rw [hf] at h; simp at h
    | some ent =>
      rw [hf] at h
      dsimp only at h
      cases hr : handleAddTag ent.tags tg with
      | error e => rw [hr] at h; simp at h
      | ok ts =>
        rw [hr] at h
        simp only [Except.ok.injEq] at h
        subst h
        refine ⟨acyclic_map_keep s _ ?_ ?_ hA, nodupIds_map_keep s _ ?_ hnd⟩ <;>
          (intro e; by_cases hc : (e.id == i) = true <;> simp [hc])
  | removeTag i tg =>
    simp only [applyOp] at h
    unfold removeTag at h
    cases hf : jsFind s i with
    | none => rw [hf] at h; simp at h
    | some ent =>
      rw [hf] at h
      dsimp only at h
      cases hr : handleDeleteTag ent.tags tg with
      | error e => rw [hr] at h; simp at h
      | ok ts =>
        rw [hr] at h
        simp only [Except.ok.injEq] at h
        subst h
        refine ⟨acyclic_map_keep s _ ?_ ?_ hA, nodupIds_map_keep s _ ?_ hnd⟩ <;>
          (intro e; by_cases hc : (e.id == i) = true <;> simp [hc])

theorem applyOps_preserves (s : Store) (ops : List Op)
    (hA : Acyclic s) (hnd : NodupIds s) :
    Acyclic (applyOps s ops) ∧ NodupIds (applyOps s ops) := by
  induction ops generalizing s with
  | nil => exact ⟨hA, hnd⟩
  | cons op rest ih =>
    simp only [applyOps]
    cases hop : applyOp s op with
    | ok t =>
      have hp := applyOp_preserves s op t hop hA hnd
      exact ih t hp.1 hp.2
    | error e => exact ih s hA hnd

/-- A node of the favorites forest: an entry with its populated `children`
list (the objects built by `buildHierarchy` in the favorites screen). -/
inductive FavTree where
  | node (entry : Entry) (children : List FavTree)
deriving Repr

/-- `fetchFolderContents` of the favorites screen (`FolderListView` in
ScanScreen.js): list a folder's children, recurse into the child folders,
and return the concatenation.  The JS recursion terminates because the data
is acyclic; here the store size serves as fuel. -/
def fetchFolderContents (s : Store) (owner : String) : Nat → String → List Entry
  | 0, _ => []
  | Nat.succ fuel, folderId =>
    let contents := listChildren s owner (some folderId)
    contents ++
      ((contents.filter (fun i => i.is_folder)).map
        (fun f => fetchFolderContents s owner fuel f.id)).flatten

/-- `isInsideFavoritedFolder` of the favorites screen: walk the parent
chain inside the fetched `allItems`, reporting whether some ancestor's
parent is a favorited folder id.  A `null`/unresolvable id yields false,
exactly as `allItems.find` yields `undefined` in JS. -/
def isInsideFavoritedFolder (allItems : List Entry) (favIds : List String) :
    Nat → Option String → Bool
  | 0, _ => false
  | _, none => false
  | Nat.succ fuel, some itemId =>
    match jsFind allItems itemId with
    | none => false
    | some item =>
      (match item.parent_id with
       | none => false
       | some p => favIds.contains p) ||
        isInsideFavoritedFolder allItems favIds fuel item.parent_id

/-- `buildHierarchy` of the favorites screen: a node together with the
recursively built children drawn from the shown item pool. -/
def buildHierarchy (pool : List Entry) : Nat → Entry → FavTree
  | 0, cur => FavTree.node cur []
  | Nat.succ fuel, cur =>
    FavTree.node cur
      ((pool.filter (fun child => child.parent_id == some cur.id)).map
        (buildHierarchy pool fuel))

/-- The root items fetched first by the favorites screen. -/
def favRootData (s : Store) (owner : String) : List Entry :=
  listChildren s owner none

/-- `favoritedFolderIds` of the favorites screen: ids of the starred
folders among the fetched root items. -/
def favFolderIds (s : Store) (owner : String) : List String :=
  (((favRootData s owner).filter (fun item => item.is_starred)).filter
      (fun item => item.is_folder)).map (fun f => f.id)

/-- `allItems` of the favorites screen: the root items together with the
recursively fetched contents of every favorited root folder. -/
def favAllItems (s : Store) (owner : String) : List Entry :=
  favRootData s owner ++
    ((favFolderIds s owner).map
      (fun fid => fetchFolderContents s owner s.length fid)).flatten

/-- `allItemsToShow` of the favorites screen: the fetched items that are
starred themselves, direct children of a favorited folder, or nested inside
one. -/
def favAllItemsToShow (s : Store) (owner : String) : List Entry :=
  (favAllItems s owner).filter (fun item =>
    item.is_starred ||
      (match item.parent_id with
       | none => false
       | some p =>
         (favFolderIds s owner).contains p ||
           isInsideFavoritedFolder (favAllItems s owner) (favFolderIds s owner)
             s.length (some p)))

/-- `rootItems` of the favorites screen: the directly-starred items shown. -/
def favRootItems (s : Store) (owner : String) : List Entry :=
  (favAllItemsToShow s owner).filter (fun item => item.is_starred)

/-- `fetchItems` of the favorites screen (`FolderListView` in
ScanScreen.js, lines 866-996): fetch the root items, collect the favorited
folder ids among them, recursively fetch the contents of those folders,
filter everything to the items that are starred or sit inside a favorited
folder, and build the forest rooted at the directly-starred items. -/
def favoritesFetchItems (s : Store) (owner : String) : List FavTree :=
  (favRootItems s owner).map
    (fun item => buildHierarchy (favAllItemsToShow s owner) s.length item)

/-- The entries appearing anywhere in a favorites tree. -/
def favNodes : FavTree → List Entry
  | FavTree.node e cs => e :: (cs.attach.map (fun c => favNodes c.1)).flatten
decreasing_by
  simp_wf
  have := List.sizeOf_lt_of_mem c.2
  omega

/-- The root entries of the favorites forest. -/
def favRoots (ts : List FavTree) : List Entry :=
  ts.map (fun t => match t with | FavTree.node e _ => e)

end Citrus

namespace Citrus

/-- The response handling of `api.updateFileSystemItem` (the axios service,
lines 333-379): `validateStatus` accepts 2xx **and 500**; the function then
returns `response.data` as the successful result — including when the
status is 500 ("Received 500 but response has data, treating as success").
Any other status rejects the promise and the error propagates. -/
def updateFileSystemItemResult (status : Nat) (data : Option Entry) :
    Except Err (Option Entry) :=
  if (200 ≤ status ∧ status < 300) ∨ status = 500 then Except.ok data
  else Except.error (Err.HttpError status)

/-- The query parameters built by `api.updateFileSystemItem`: `name` when
truthy, `parent_id` whenever it is not `undefined` (with JS `null`
serialized by `URLSearchParams` as the text "null"), `is_starred` when not
`undefined`. -/
def updateFileSystemItemParams (name : Option String)
    (parent : Option (Option String)) (starred : Option Bool) :
    List (String × String) :=
  (match name with
   | some n => if n = "" then [] else [("name", n)]
   | none => []) ++
    (match parent with
     | some v => [("parent_id", match v with | none => "null" | some x => x)]
     | none => []) ++
      (match starred with
       | some b => [("is_starred", if b then "true" else "false")]
       | none => [])

/-- The `parent_id` value sent by `handleMove` of the Library screen
(lines 836-875): moving "to parent" while the current folder is at root
level sends the literal string `"null"`; otherwise the current folder's
parent, or the chosen target folder id; `none` means no update call is
made at all. -/
def handleMoveParentArg (currentFolder : Option Entry)
    (targetFolderId : Option String) : Option (Option String) :=
  match targetFolderId with
  | none =>
    match currentFolder with
    | none => none
    | some cf =>
      if cf.parent_id = none then some (some "null") else some cf.parent_id
  | some tid => some (some tid)

/-- The backend applying a `parent_id` query parameter: the raw string
becomes the stored parent reference.  Modelled from the spec's update
operation (the backend is not among the sources); the store has no notion
of the text "null" denoting the null root value. -/
def serverSetParent (s : Store) (itemId : String) (v : String) : Store :=
  s.map (fun e => if e.id == itemId then { e with parent_id := some v } else e)

/-- The client-side listing filter of `fetchItems` in the Library screen
(lines 98-123): keep the items whose `parent_id` equals the current
folder's id, or `=== null` at root level. -/
def fetchItemsFilter (items : List Entry) (currentFolder : Option Entry) :
    List Entry :=
  items.filter (fun item =>
    match currentFolder with
    | some cf => item.parent_id == some cf.id
    | none => item.parent_id == none)

/-- `handleCreateFolder` of the Library screen (lines 366-390): an
empty/whitespace name shows an error and makes no API call (store
untouched); otherwise `api.createFolder` is called with the trimmed name
under the current folder. -/
def handleCreateFolder (s : Store) (owner : String) (currentFolder : Option Entry)
    (newFolderName : String) (now : Nat) : Except Err Store :=
  if jsTrim newFolderName = "" then Except.error Err.InvalidName
  else
    createEntry s owner (jsTrim newFolderName) true
      (currentFolder.map (fun f => f.id)) [] none now

/-- `handleRename` of the Library screen (lines 768-834): no selected item
or an empty/whitespace name shows an error and sends nothing; otherwise the
item is renamed to the trimmed name. -/
def handleRename (s : Store) (selectedItem : Option Entry) (newName : String) :
    Except Err Store :=
  match selectedItem with
  | none => Except.error Err.NotFound
  | some item =>
    if jsTrim newName = "" then Except.error Err.InvalidName
    else renameEntry s item.id (jsTrim newName)

/-- A successful `moveEntry` produces exactly the pointwise reparenting. -/
theorem moveEntry_ok_shape (s : Store) (a : String) (nb : Option String) (t : Store)
    (h : moveEntry s a nb = Except.ok t) : t = updateParent s a nb := by
  unfold moveEntry at h
  cases hf : jsFind s a with
  | none => rw [hf] at h; simp at h
  | some ent =>
    rw [hf] at h
    dsimp only at h
    cases nb with
    | none =>
      simp only [Except.ok.injEq] at h
      exact h.symm
    | some b =>
      dsimp only at h
      split at h
      · simp at h
      · cases hfb : jsFind s b with
        | none => rw [hfb] at h; simp at h
        | some pe =>
          rw [hfb] at h
          dsimp only at h
          split at h
          · simp only [Except.ok.injEq] at h
            exact h.symm
          · simp at h

/-- Inversion of a successful `handleAddTag`. -/
theorem handleAddTag_ok (tags tags2 : List String) (t : String)
    (h : handleAddTag tags t = Except.ok tags2) :
    jsTrim t ≠ "" ∧
      (tags.map jsToLower).contains (jsToLower (jsTrim t)) = false ∧
      tags2 = tags.map jsToLower ++ [jsToLower (jsTrim t)] := by
  unfold handleAddTag at h
  split at h
  · simp at h
  next hne =>
    dsimp only at h
    split at h
    · simp at h
    next hdup =>
      simp only [Except.ok.injEq] at h
      exact ⟨hne, by simpa using hdup, h.symm⟩

end Citrus

namespace Citrus

/-- C2: for every entry A and target B, `moveEntry(A, B)` fails with
`CyclicMove` whenever B equals A or B is a descendant of A; the
implementation walks the ancestor chain from B up to root before
reparenting. -/
theorem c2_move_cyclic (s : Store) (a b : String) (ent : Entry)
    (hf : jsFind s a = some ent)
    (hdesc : b = a ∨ ∃ eb, jsFind s b = some eb ∧ IsDescendantOf s a eb) :
    moveEntry s a (some b) = Except.error Err.CyclicMove := by
  have hhit : ∃ n, chainHasId s n (some b) a = true := by
    rcases hdesc with rfl | ⟨eb, hfb, n, hn⟩
    · exact ⟨1, by simp [chainHasId]⟩
    · exact ⟨n + 1, by simp [chainHasId, hfb, hn]⟩
  obtain ⟨n, hn⟩ := hhit
  have hguard := chainHasIdC_of_chainHasId s n (some b) a hn s.length
  unfold moveEntry
  rw [hf]
  dsimp only
  simp [hguard]

theorem c2_move_cyclic_witness :
    moveEntry
      [⟨"a", "u", "folderA", true, none, false, [], 0, none⟩,
       ⟨"b", "u", "folderB", true, some "a", false, [], 0, none⟩]
      "a" (some "b") = Except.error Err.CyclicMove :=
  c2_move_cyclic _ "a" "b" ⟨"a", "u", "folderA", true, none, false, [], 0, none⟩
    rfl
    (Or.inr ⟨⟨"b", "u", "folderB", true, some "a", false, [], 0, none⟩, rfl,
      ⟨1, by decide⟩⟩)

/-- C3: after every sequence of operations (create, rename, move, delete,
star, tag), every entry's `parent_id` chain reaches `null` in finitely many
steps, and ids stay unique: the tree invariant is preserved by every
operation, `moveEntry` included. -/
theorem c3_ops_preserve_acyclic (s : Store) (ops : List Op)
    (hA : Acyclic s) (hnd : NodupIds s) :
    Acyclic (applyOps s ops) ∧ NodupIds (applyOps s ops) :=
  applyOps_preserves s ops hA hnd

theorem c3_ops_preserve_acyclic_witness :
    Acyclic (applyOps [] [Op.create "u" "root" true none [] none 0]) ∧
      NodupIds (applyOps [] [Op.create "u" "root" true none [] none 0]) :=
  c3_ops_preserve_acyclic [] [Op.create "u" "root" true none [] none 0]
    (fun e he => absurd he (List.not_mem_nil e)) (by simp [NodupIds])

def c4F1 : Entry := ⟨"f1", "u", "F1", true, none, true, [], 0, none⟩

def c4F2 : Entry := ⟨"f2", "u", "F2", true, some "f1", false, [], 0, none⟩

def c4A : Entry := ⟨"a", "u", "A", false, some "f2", false, [], 0, none⟩

def c4A2 : Entry := ⟨"a", "u", "A", false, none, false, [], 0, none⟩

/-- C4: with root folder F1 (starred), subfolder F2 under F1 and file A
under F2, the favorites view is `[{F1, children: [{F2, children: [A]}]}]`;
after moving A to root, the view is `[{F1, children: [{F2, children: []}]}]`
with A absent. -/
theorem c4_favorites_scenario :
    favoritesFetchItems [c4F1, c4F2, c4A] "u" =
      [FavTree.node c4F1 [FavTree.node c4F2 [FavTree.node c4A []]]] ∧
    moveEntry [c4F1, c4F2, c4A] "a" none = Except.ok [c4F1, c4F2, c4A2] ∧
    favoritesFetchItems [c4F1, c4F2, c4A2] "u" =
      [FavTree.node c4F1 [FavTree.node c4F2 []]] :=
  ⟨rfl, rfl, rfl⟩

/-- C5: a successful `moveEntry` changes only the moved entry's
`parent_id`: its other fields are unchanged and every other entry — every
descendant included — is entirely unchanged, so the subtree moves
contiguously. -/
theorem c5_move_frame (s : Store) (a : String) (nb : Option String) (t : Store)
    (h : moveEntry s a nb = Except.ok t) :
    t.length = s.length ∧
      (∀ e ∈ s, e.id ≠ a → e ∈ t) ∧
      (∀ e ∈ s, e.id = a → { e with parent_id := nb } ∈ t) ∧
      (∀ e' ∈ t, ∃ e ∈ s, e'.id = e.id ∧ e'.owner = e.owner ∧ e'.name = e.name ∧
        e'.is_folder = e.is_folder ∧ e'.is_starred = e.is_starred ∧
        e'.tags = e.tags ∧ e'.created_at = e.created_at ∧
        e'.content_ref = e.content_ref ∧
        (e.id ≠ a → e'.parent_id = e.parent_id) ∧ (e.id = a → e'.parent_id = nb)) := by
  have hsh := moveEntry_ok_shape s a nb t h
  subst hsh
  unfold updateParent
  refine ⟨by simp, ?_, ?_, ?_⟩
  · intro e he hne
    refine List.mem_map.mpr ⟨e, he, ?_⟩
    simp [hne]
  · intro e he heq
    refine List.mem_map.mpr ⟨e, he, ?_⟩
    simp [heq]
  · intro e' he'
    obtain ⟨e, he, rfl⟩ := List.mem_map.mp he'
    refine ⟨e, he, ?_⟩
    by_cases hc : (e.id == a) = true
    · have : e.id = a := by simpa using hc
      simp [hc, this]
    · have : ¬(e.id = a) := by simpa using hc
      simp [hc, this]

theorem c5_move_frame_witness :
    ((moveEntry
        [⟨"a", "u", "folderA", true, none, false, [], 0, none⟩,
         ⟨"b", "u", "fileB", false, some "a", false, ["t"], 3, some "blob"⟩]
        "b" none =
      Except.ok
        [⟨"a", "u", "folderA", true, none, false, [], 0, none⟩,
         ⟨"b", "u", "fileB", false, none, false, ["t"], 3, some "blob"⟩]) ∧
      ([⟨"a", "u", "folderA", true, none, false, [], 0, none⟩,
        ⟨"b", "u", "fileB", false, none, false, ["t"], 3, some "blob"⟩] : Store).length =
        ([⟨"a", "u", "folderA", true, none, false, [], 0, none⟩,
          ⟨"b", "u", "fileB", false, some "a", false, ["t"], 3, some "blob"⟩] : Store).length) ∧
      (⟨"a", "u", "folderA", true, none, false, [], 0, none⟩ : Entry) ∈
        ([⟨"a", "u", "folderA", true, none, false, [], 0, none⟩,
          ⟨"b", "u", "fileB", false, none, false, ["t"], 3, some "blob"⟩] : Store) := by
  refine ⟨⟨rfl, ?_⟩, ?_⟩
  · exact (c5_move_frame
      [⟨"a", "u", "folderA", true, none, false, [], 0, none⟩,
       ⟨"b", "u", "fileB", false, some "a", false, ["t"], 3, some "blob"⟩]
      "b" none _ rfl).1
  · exact (c5_move_frame
      [⟨"a", "u", "folderA", true, none, false, [], 0, none⟩,
       ⟨"b", "u", "fileB", false, some "a", false, ["t"], 3, some "blob"⟩]
      "b" none _ rfl).2.1 _ (by simp) (by decide)

end Citrus

namespace Citrus

/-- C6: adding the same tag twice (any casing) makes the second call fail
with the duplicate-tag conflict, and after any successful tag addition
every stored tag of the entry is lowercase. -/
theorem c6_add_tag :
    (∀ (tags tags2 : List String) (t1 t2 : String),
        handleAddTag tags t1 = Except.ok tags2 →
        jsToLower (jsTrim t2) = jsToLower (jsTrim t1) →
        handleAddTag tags2 t2 = Except.error Err.DuplicateTag) ∧
      (∀ (tags tags2 : List String) (t : String),
        handleAddTag tags t = Except.ok tags2 → ∀ x ∈ tags2, jsToLower x = x) := by
  constructor
  · intro tags tags2 t1 t2 h1 heq
    obtain ⟨hne, hdup, rfl⟩ := handleAddTag_ok tags tags2 t1 h1
    have hne2 : jsTrim t2 ≠ "" := by
      intro hc
      apply hne
      rw [← jsToLower_eq_empty_iff, ← heq, hc]
      rfl
    unfold handleAddTag
    rw [if_neg hne2]
    dsimp only
    have hmap : (tags.map jsToLower ++ [jsToLower (jsTrim t1)]).map jsToLower =
        tags.map jsToLower ++ [jsToLower (jsTrim t1)] := by
      rw [List.map_append, List.map_map]
      congr 1
      · exact List.map_congr_left (fun a _ => jsToLower_idem a)
      · simp [jsToLower_idem]
    rw [hmap, heq]
    have hcont : (tags.map jsToLower ++ [jsToLower (jsTrim t1)]).contains
        (jsToLower (jsTrim t1)) = true := by
      simp
    rw [if_pos hcont]
  · intro tags tags2 t h x hx
    obtain ⟨-, -, rfl⟩ := handleAddTag_ok tags tags2 t h
    rcases List.mem_append.mp hx with hx1 | hx2
    · obtain ⟨y, hy, rfl⟩ := List.mem_map.mp hx1
      exact jsToLower_idem y
    · have : x = jsToLower (jsTrim t) := by simpa using hx2
      rw [this]
      exact jsToLower_idem _

theorem c6_add_tag_witness :
    handleAddTag ["foo"] "FOO" = Except.error Err.DuplicateTag ∧
      jsToLower "foo" = "foo" :=
  ⟨c6_add_tag.1 [] ["foo"] "Foo" "FOO" rfl rfl,
    c6_add_tag.2 [] ["foo"] "Foo" rfl "foo" (by simp)⟩

/-- C7: removing a tag that is not present (even up to case) leaves the
entry's tags unchanged, and the operation fails with the nothing-to-delete
error exactly when the entry has no tags at all. -/
theorem c7_remove_tag (tags : List String) (tag : String) :
    ((∀ t ∈ tags, jsToLower t ≠ jsToLower tag) → tags ≠ [] →
        handleDeleteTag tags tag = Except.ok tags) ∧
      (handleDeleteTag tags tag = Except.error Err.NotFound ↔ tags = []) := by
  constructor
  · intro hni hne
    unfold handleDeleteTag
    rw [if_neg (by simpa using hne)]
    have hfil : tags.filter (fun t => !(t == tag)) = tags := by
      apply List.filter_eq_self.mpr
      intro t ht
      have : t ≠ tag := fun hc => hni t ht (by rw [hc])
      simp [this]
    rw [hfil]
  · unfold handleDeleteTag
    cases tags with
    | nil => simp
    | cons h t => simp

theorem c7_remove_tag_witness :
    (handleDeleteTag ["a"] "b" = Except.ok ["a"]) ∧
      (handleDeleteTag [] "b" = Except.error Err.NotFound ↔ ([] : List String) = []) :=
  ⟨(c7_remove_tag ["a"] "b").1 (by decide) (by decide), (c7_remove_tag [] "b").2⟩

/-- C8: the update call reports success on a server failure — a PUT
answered with status 500 and a body is returned to the caller as a
successful result instead of surfacing the error. -/
theorem c8_update_500_reported_success (data : Option Entry) :
    updateFileSystemItemResult 500 data = Except.ok data := by
  unfold updateFileSystemItemResult
  rw [if_pos (Or.inr rfl)]

/-- C9: creating with an empty or whitespace-only name and renaming to the
empty name fail with `InvalidName`, on the store operations and on the
embedded client handlers alike, and the store is left untouched. -/
theorem c9_invalid_name (s : Store) (owner name : String) (is_folder : Bool)
    (parent : Option String) (tags : List String) (content : Option String)
    (now : Nat) (currentFolder : Option Entry) (ent : Entry) (entry_id : String)
    (hws : ∀ c ∈ name.data, jsIsWs c = true)
    (hfind : jsFind s entry_id = some ent) :
    createEntry s owner name is_folder parent tags content now =
        Except.error Err.InvalidName ∧
      handleCreateFolder s owner currentFolder name now =
        Except.error Err.InvalidName ∧
      applyOps s [Op.create owner name is_folder parent tags content now] = s ∧
      renameEntry s entry_id "" = Except.error Err.InvalidName ∧
      handleRename s (some ent) "" = Except.error Err.InvalidName ∧
      applyOps s [Op.rename entry_id ""] = s := by
  have htrim : jsTrim name = "" := jsTrim_of_all_ws name hws
  have hce : createEntry s owner name is_folder parent tags content now =
      Except.error Err.InvalidName := by
    unfold createEntry
    rw [if_pos htrim]
  have hre : renameEntry s entry_id "" = Except.error Err.InvalidName := by
    unfold renameEntry
    rw [hfind]
    rfl
  refine ⟨hce, ?_, ?_, hre, ?_, ?_⟩
  · unfold handleCreateFolder
    rw [if_pos htrim]
  · simp [applyOps, applyOp, hce]
  · unfold handleRename
    rfl
  · simp [applyOps, applyOp, hre]

theorem c9_invalid_name_witness :
    createEntry [⟨"e", "u", "E", false, none, false, [], 0, none⟩] "u" " " true
        none [] none 0 = Except.error Err.InvalidName ∧
      handleCreateFolder [⟨"e", "u", "E", false, none, false, [], 0, none⟩] "u"
        none " " 0 = Except.error Err.InvalidName ∧
      applyOps [⟨"e", "u", "E", false, none, false, [], 0, none⟩]
        [Op.create "u" " " true none [] none 0] =
        [⟨"e", "u", "E", false, none, false, [], 0, none⟩] ∧
      renameEntry [⟨"e", "u", "E", false, none, false, [], 0, none⟩] "e" "" =
        Except.error Err.InvalidName ∧
      handleRename [⟨"e", "u", "E", false, none, false, [], 0, none⟩]
        (some ⟨"e", "u", "E", false, none, false, [], 0, none⟩) "" =
        Except.error Err.InvalidName ∧
      applyOps [⟨"e", "u", "E", false, none, false, [], 0, none⟩]
        [Op.rename "e" ""] =
        [⟨"e", "u", "E", false, none, false, [], 0, none⟩] :=
  c9_invalid_name [⟨"e", "u", "E", false, none, false, [], 0, none⟩] "u" " "
    true none [] none 0 none ⟨"e", "u", "E", false, none, false, [], 0, none⟩
    "e" (by decide) rfl

/-- C10: moving "to parent" while the current folder is at root level sends
the literal string "null" as the new `parent_id`; `updateFileSystemItem`
appends it to the query as-is, the stored `parent_id` becomes the non-null
string "null", and the root listing filter (`parent_id === null`) excludes
the moved item. -/
theorem c10_move_to_root_string_null (s : Store) (cf item : Entry)
    (hroot : cf.parent_id = none) (hmem : item ∈ s) :
    handleMoveParentArg (some cf) none = some (some "null") ∧
      updateFileSystemItemParams none (some (some "null")) none =
        [("parent_id", "null")] ∧
      { item with parent_id := some "null" } ∈ serverSetParent s item.id "null" ∧
      ∀ e' ∈ fetchItemsFilter (serverSetParent s item.id "null") none,
        e'.id ≠ item.id := by
  refine ⟨?_, rfl, ?_, ?_⟩
  · unfold handleMoveParentArg
    dsimp only
    rw [if_pos hroot]
  · unfold serverSetParent
    exact List.mem_map.mpr ⟨item, hmem, by simp⟩
  · intro e' he'
    unfold fetchItemsFilter serverSetParent at he'
    rw [List.mem_filter] at he'
    obtain ⟨hmem', hcond⟩ := he'
    obtain ⟨e, he, rfl⟩ := List.mem_map.mp hmem'
    by_cases hc : (e.id == item.id) = true
    · exfalso
      rw [if_pos hc] at hcond
      simp at hcond
    · rw [if_neg hc]
      simpa using hc

theorem c10_move_to_root_string_null_witness :
    handleMoveParentArg (some ⟨"f", "u", "F", true, none, false, [], 0, none⟩)
        none = some (some "null") ∧
      updateFileSystemItemParams none (some (some "null")) none =
        [("parent_id", "null")] ∧
      ({ (⟨"x", "u", "X", false, some "f", false, [], 0, none⟩ : Entry) with
          parent_id := some "null" } ∈
        serverSetParent
          [⟨"f", "u", "F", true, none, false, [], 0, none⟩,
           ⟨"x", "u", "X", false, some "f", false, [], 0, none⟩] "x" "null") ∧
      (⟨"f", "u", "F", true, none, false, [], 0, none⟩ : Entry).id ≠ "x" := by
  have h := c10_move_to_root_string_null
    [⟨"f", "u", "F", true, none, false, [], 0, none⟩,
     ⟨"x", "u", "X", false, some "f", false, [], 0, none⟩]
    ⟨"f", "u", "F", true, none, false, [], 0, none⟩
    ⟨"x", "u", "X", false, some "f", false, [], 0, none⟩ rfl (by decide)
  exact ⟨h.1, h.2.1, h.2.2.1,
    h.2.2.2 ⟨"f", "u", "F", true, none, false, [], 0, none⟩ (by decide)⟩

end Citrus

namespace Citrus

/-- Data-model invariant: a non-null `parent_id` references an existing
folder entry of the same owner. -/
def ParentWF (s : Store) : Prop :=
  ∀ e ∈ s, ∀ p, e.parent_id = some p →
    ∃ pe, pe ∈ s ∧ pe.id = p ∧ pe.owner = e.owner ∧ pe.is_folder = true

/-- A starred folder sitting at root level, owned by `owner`. -/
def RootStarFolder (s : Store) (owner : String) (f : Entry) : Prop :=
  f ∈ s ∧ f.owner = owner ∧ f.parent_id = none ∧ f.is_starred = true ∧
    f.is_folder = true

/-- The spec's claimed favorites node condition, following the spec's words
for the refinement comparison: an entry that is itself starred, or a
descendant (at any depth) of a starred folder. -/
def SpecFavNode (s : Store) (owner : String) (e : Entry) : Prop :=
  e.is_starred = true ∨
    ∃ f, f ∈ s ∧ f.owner = owner ∧ f.is_folder = true ∧ f.is_starred = true ∧
      IsDescendantOf s f.id e

/-- `x` sits in the subtree fetched below the folder id `fid`, at recursion
depth `k`, through same-owner folders — the down-paths walked by
`fetchFolderContents`. -/
inductive SubtreeAt (s : Store) (owner : String) : String → Entry → Nat → Prop where
  | child : ∀ {fid : String} {e : Entry},
      e ∈ s → e.owner = owner → e.parent_id = some fid → SubtreeAt s owner fid e 0
  | nest : ∀ {fid : String} {e g : Entry} {k : Nat},
      g ∈ s → g.owner = owner → g.is_folder = true → g.parent_id = some fid →
      SubtreeAt s owner g.id e k → SubtreeAt s owner fid e (k + 1)

theorem subtree_mem (s : Store) (owner : String) {fid : String} {e : Entry} {k : Nat}
    (h : SubtreeAt s owner fid e k) : e ∈ s ∧ e.owner = owner := by
  induction h with
  | child he ho _ => exact ⟨he, ho⟩
  | nest _ _ _ _ _ ih => exact ih

theorem listChildren_mem (s : Store) (owner : String) (pid : Option String) (x : Entry) :
    x ∈ listChildren s owner pid ↔ x ∈ s ∧ x.owner = owner ∧ x.parent_id = pid := by
  unfold listChildren
  rw [List.mem_filter]
  simp

/-- Completeness of `fetchFolderContents`: everything in the subtree shows
up, given fuel exceeding the depth. -/
theorem ffc_complete (s : Store) (owner : String) {fid : String} {e : Entry} {k : Nat}
    (h : SubtreeAt s owner fid e k) :
    ∀ fuel, k + 1 ≤ fuel → e ∈ fetchFolderContents s owner fuel fid := by
  induction h with
  | child he ho hp =>
    intro fuel hfuel
    cases fuel with
    | zero => omega
    | succ m =>
      unfold fetchFolderContents
      apply List.mem_append_left
      exact (listChildren_mem s owner _ _).mpr ⟨he, ho, hp⟩
  | nest hg hgo hgf hgp _ ih =>
    intro fuel hfuel
    cases fuel with
    | zero => omega
    | succ m =>
      unfold fetchFolderContents
      apply List.mem_append_right
      rw [List.mem_flatten]
      refine ⟨fetchFolderContents s owner m _, ?_, ih m (by omega)⟩
      rw [List.mem_map]
      refine ⟨_, ?_, rfl⟩
      rw [List.mem_filter]
      exact ⟨(listChildren_mem s owner _ _).mpr ⟨hg, hgo, hgp⟩, hgf⟩

/-- Soundness of `fetchFolderContents`: only subtree members show up. -/
theorem ffc_sound (s : Store) (owner : String) :
    ∀ (fuel : Nat) (fid : String) (e : Entry),
      e ∈ fetchFolderContents s owner fuel fid → ∃ k, SubtreeAt s owner fid e k := by
  intro fuel
  induction fuel with
  | zero => intro fid e h; simp [fetchFolderContents] at h
  | succ m ih =>
    intro fid e h
    unfold fetchFolderContents at h
    rcases List.mem_append.mp h with hl | hr
    · obtain ⟨he, ho, hp⟩ := (listChildren_mem s owner _ _).mp hl
      exact ⟨0, SubtreeAt.child he ho hp⟩
    · rw [List.mem_flatten] at hr
      obtain ⟨L, hL, heL⟩ := hr
      rw [List.mem_map] at hL
      obtain ⟨f, hf, rfl⟩ := hL
      rw [List.mem_filter] at hf
      obtain ⟨hfc, hffold⟩ := hf
      obtain ⟨hfs, hfo, hfp⟩ := (listChildren_mem s owner _ _).mp hfc
      obtain ⟨k, hk⟩ := ih f.id e heL
      exact ⟨k + 1, SubtreeAt.nest hfs hfo hffold hfp hk⟩

/-- Splice two upward walks: a hit of `x` followed by a hit of `t` from
`x`'s entry gives a hit of `t`. -/
theorem chainHasId_extend (s : Store) :
    ∀ (n : Nat) (p : Option String) (x : String),
      chainHasId s n p x = true →
      ∀ (g : Entry) (t : String) (m : Nat),
        jsFind s x = some g → chainHasId s m g.parent_id t = true →
        ∃ k, chainHasId s k p t = true := by
  intro n
  induction n with
  | zero => intro p x h; cases p <;> simp [chainHasId] at h
  | succ n ih =>
    intro p x h g t m hg ht
    cases p with
    | none => simp [chainHasId] at h
    | some q =>
      simp only [chainHasId, Bool.or_eq_true] at h
      rcases h with h | h
      · have hqx : q = x := by simpa using h
        subst hqx
        refine ⟨m + 1, ?_⟩
        simp [chainHasId, hg, ht]
      · cases hf : jsFind s q with
        | none => rw [hf] at h; simp at h
        | some e =>
          rw [hf] at h
          obtain ⟨k, hk⟩ := ih e.parent_id x h g t m hg ht
          refine ⟨k + 1, ?_⟩
          simp [chainHasId, hf, hk]

theorem subtree_desc (s : Store) (owner : String) (hnd : NodupIds s)
    {fid : String} {e : Entry} {k : Nat} (h : SubtreeAt s owner fid e k) :
    IsDescendantOf s fid e := by
  induction h with
  | child _ _ hp => exact ⟨1, by simp [chainHasId, hp]⟩
  | @nest fid2 e2 g k2 hg hgo hgf hgp hsub ih =>
    obtain ⟨n, hn⟩ := ih
    have hfg : jsFind s g.id = some g := jsFind_of_mem_nodup s g hg hnd
    have htail : chainHasId s 1 g.parent_id fid2 = true := by
      rw [hgp]
      simp [chainHasId]
    exact chainHasId_extend s n e2.parent_id g.id hn g fid2 1 hfg htail

/-- Extending a fetched-subtree derivation downward by one child. -/
theorem subtree_snoc (s : Store) (owner : String) {fid : String} {g : Entry} {k : Nat}
    (h : SubtreeAt s owner fid g k) :
    ∀ e, e ∈ s → e.owner = owner → e.parent_id = some g.id → g.is_folder = true →
      SubtreeAt s owner fid e (k + 1) := by
  induction h with
  | child hg hgo hgp =>
    intro e he heo hep hfold
    exact SubtreeAt.nest hg hgo hfold hgp (SubtreeAt.child he heo hep)
  | nest hg0 hg0o hg0f hg0p _ ih =>
    intro e he heo hep hfold
    exact SubtreeAt.nest hg0 hg0o hg0f hg0p (ih e he heo hep hfold)

/-- From an upward chain meeting `fid` to a fetched-subtree derivation with
a depth bound. -/
theorem desc_subtree (s : Store) (owner : String) (hnd : NodupIds s) (hpw : ParentWF s) :
    ∀ (m : Nat) (e : Entry) (l : List String) (fid : String),
      e ∈ s → e.owner = owner → chainList s m e.parent_id = some l → fid ∈ l →
      ∃ k, SubtreeAt s owner fid e k ∧ k + 1 ≤ l.length := by
  intro m
  induction m with
  | zero =>
    intro e l fid _ _ hl hfid
    cases hp : e.parent_id with
    | none => rw [hp] at hl; simp [chainList] at hl; subst hl; simp at hfid
    | some p => rw [hp] at hl; simp [chainList] at hl
  | succ m ih =>
    intro e l fid he heo hl hfid
    cases hp : e.parent_id with
    | none => rw [hp] at hl; simp [chainList] at hl; subst hl; simp at hfid
    | some p =>
      rw [hp] at hl
      simp only [chainList] at hl
      cases hf : jsFind s p with
      | none => rw [hf] at hl; simp at hl
      | some g =>
        rw [hf] at hl
        simp only [Option.map_eq_some'] at hl
        obtain ⟨rest, hrest, rfl⟩ := hl
        obtain ⟨pe, hpes, hpeid, hpeo, hpef⟩ := hpw e he p hp
        have hgpe : g = pe := by
          have h1 : jsFind s pe.id = some pe := jsFind_of_mem_nodup s pe hpes hnd
          rw [hpeid] at h1
          rw [hf] at h1
          exact Option.some.inj h1
        subst hgpe
        rcases List.mem_cons.mp hfid with rfl | hrestmem
        · refine ⟨0, SubtreeAt.child he heo hp, by simp⟩
        · obtain ⟨k, hsub, hk⟩ := ih g rest fid hpes (hpeo.trans heo) hrest hrestmem
          refine ⟨k + 1, ?_, by simp; omega⟩
          have := subtree_snoc s owner hsub e he heo (by rw [hp, hpeid]) hpef
          exact this

end Citrus

namespace Citrus

theorem favFolderIds_mem (s : Store) (owner : String) (fid : String) :
    fid ∈ favFolderIds s owner ↔
      ∃ f, RootStarFolder s owner f ∧ f.id = fid := by
  unfold favFolderIds favRootData
  constructor
  · intro h
    rw [List.mem_map] at h
    obtain ⟨f, hf, rfl⟩ := h
    rw [List.mem_filter] at hf
    obtain ⟨hf1, hffold⟩ := hf
    rw [List.mem_filter] at hf1
    obtain ⟨hf2, hfstar⟩ := hf1
    obtain ⟨hfs, hfo, hfp⟩ := (listChildren_mem s owner none f).mp hf2
    exact ⟨f, ⟨hfs, hfo, hfp, hfstar, hffold⟩, rfl⟩
  · intro ⟨f, ⟨hfs, hfo, hfp, hfstar, hffold⟩, hfid⟩
    rw [List.mem_map]
    refine ⟨f, ?_, hfid⟩
    rw [List.mem_filter, List.mem_filter]
    exact ⟨⟨(listChildren_mem s owner none f).mpr ⟨hfs, hfo, hfp⟩, hfstar⟩, hffold⟩

theorem favAllItems_sub (s : Store) (owner : String) (y : Entry)
    (h : y ∈ favAllItems s owner) : y ∈ s ∧ y.owner = owner := by
  unfold favAllItems at h
  rcases List.mem_append.mp h with hl | hr
  · obtain ⟨h1, h2, _⟩ := (listChildren_mem s owner none y).mp hl
    exact ⟨h1, h2⟩
  · rw [List.mem_flatten] at hr
    obtain ⟨L, hL, hyL⟩ := hr
    rw [List.mem_map] at hL
    obtain ⟨fid, _, rfl⟩ := hL
    obtain ⟨k, hk⟩ := ffc_sound s owner s.length fid y hyL
    exact subtree_mem s owner hk

/-- Every entry found along an upward chain has the owner of the chain's
start. -/
theorem chain_owner (s : Store) (hnd : NodupIds s) (hpw : ParentWF s) :
    ∀ (m : Nat) (e : Entry) (l : List String),
      e ∈ s → chainList s m e.parent_id = some l →
      ∀ x ∈ l, ∀ gx, jsFind s x = some gx → gx.owner = e.owner := by
  intro m
  induction m with
  | zero =>
    intro e l he hl x hx gx hgx
    cases hp : e.parent_id with
    | none => rw [hp] at hl; simp [chainList] at hl; subst hl; simp at hx
    | some p => rw [hp] at hl; simp [chainList] at hl
  | succ m ih =>
    intro e l he hl x hx gx hgx
    cases hp : e.parent_id with
    | none => rw [hp] at hl; simp [chainList] at hl; subst hl; simp at hx
    | some p =>
      rw [hp] at hl
      simp only [chainList] at hl
      cases hf : jsFind s p with
      | none => rw [hf] at hl; simp at hl
      | some g =>
        rw [hf] at hl
        simp only [Option.map_eq_some'] at hl
        obtain ⟨rest, hrest, rfl⟩ := hl
        obtain ⟨pe, hpes, hpeid, hpeo, _⟩ := hpw e he p hp
        have hgpe : g = pe := by
          have h1 : jsFind s pe.id = some pe := jsFind_of_mem_nodup s pe hpes hnd
          rw [hpeid] at h1
          rw [hf] at h1
          exact Option.some.inj h1
        subst hgpe
        rcases List.mem_cons.mp hx with rfl | hxr
        · rw [hf] at hgx
          rw [← Option.some.inj hgx]
          exact hpeo
        · have := ih g rest hpes hrest x hxr gx hgx
          rw [this]
          exact hpeo

/-- Looking up inside a duplicate-free subset agrees with the full store. -/
theorem jsFind_sub (s : Store) (sub : List Entry)
    (hsub : ∀ y ∈ sub, y ∈ s) (hnd : NodupIds s) (x : String) (g : Entry)
    (hg : jsFind s x = some g) (hgsub : g ∈ sub) : jsFind sub x = some g := by
  induction sub with
  | nil => simp at hgsub
  | cons h t ih =>
    unfold jsFind
    rcases hh : (h.id == x) with _ | _
    · simp only [List.find?, hh]
      have hgt : g ∈ t := by
        rcases List.mem_cons.mp hgsub with rfl | hgt
        · exfalso
          have : g.id = x := (jsFind_mem s x g hg).2
          rw [this] at hh
          simp at hh
        · exact hgt
      exact ih (fun y hy => hsub y (List.mem_cons_of_mem h hy)) hgt
    · simp only [List.find?, hh]
      have hhid : h.id = x := by simpa using hh
      have hhs : h ∈ s := hsub h (List.mem_cons_self h t)
      have h1 : jsFind s h.id = some h := jsFind_of_mem_nodup s h hhs hnd
      rw [hhid] at h1
      rw [hg] at h1
      rw [Option.some.inj h1]

/-- Membership in the favorites screen's `allItems`: the root entries plus
everything below a starred root folder. -/
theorem favAllItems_mem (s : Store) (owner : String) (hA : Acyclic s)
    (hnd : NodupIds s) (hpw : ParentWF s) (x : Entry) :
    x ∈ favAllItems s owner ↔
      (x ∈ s ∧ x.owner = owner ∧
        (x.parent_id = none ∨
          ∃ f, RootStarFolder s owner f ∧ IsDescendantOf s f.id x)) := by
  constructor
  · intro h
    obtain ⟨hxs, hxo⟩ := favAllItems_sub s owner x h
    refine ⟨hxs, hxo, ?_⟩
    unfold favAllItems at h
    rcases List.mem_append.mp h with hl | hr
    · exact Or.inl ((listChildren_mem s owner none x).mp hl).2.2
    · rw [List.mem_flatten] at hr
      obtain ⟨L, hL, hyL⟩ := hr
      rw [List.mem_map] at hL
      obtain ⟨fid, hfid, rfl⟩ := hL
      obtain ⟨f, hf, rfl⟩ := (favFolderIds_mem s owner fid).mp hfid
      obtain ⟨k, hk⟩ := ffc_sound s owner s.length f.id x hyL
      exact Or.inr ⟨f, hf, subtree_desc s owner hnd hk⟩
  · intro ⟨hxs, hxo, hcase⟩
    unfold favAllItems
    rcases hcase with hroot | ⟨f, hf, hdesc⟩
    · exact List.mem_append_left _ ((listChildren_mem s owner none x).mpr ⟨hxs, hxo, hroot⟩)
    · apply List.mem_append_right
      rw [List.mem_flatten]
      refine ⟨fetchFolderContents s owner s.length f.id, ?_, ?_⟩
      · rw [List.mem_map]
        exact ⟨f.id, (favFolderIds_mem s owner f.id).mpr ⟨f, hf, rfl⟩, rfl⟩
      · obtain ⟨n, hn⟩ := hdesc
        obtain ⟨m, l, hl⟩ := acyclic_chainList s hA x hxs
        have hmem : f.id ∈ l := mem_of_chainHasId s n x.parent_id f.id hn m l hl
        obtain ⟨k, hsub, hkb⟩ := desc_subtree s owner hnd hpw m x l f.id hxs hxo hl hmem
        have hls : l.length ≤ s.length := chainList_length_le s m x.parent_id l hl
        exact ffc_complete s owner hsub s.length (by omega)

end Citrus

namespace Citrus

theorem chainList_some_inv (s : Store) (m : Nat) (p : String) (l : List String)
    (h : chainList s m (some p) = some l) :
    ∃ (m' : Nat) (g : Entry) (rest : List String),
      m = m' + 1 ∧ jsFind s p = some g ∧
        chainList s m' g.parent_id = some rest ∧ l = p :: rest := by
  cases m with
  | zero => simp [chainList] at h
  | succ m' =>
    simp only [chainList] at h
    cases hf : jsFind s p with
    | none => rw [hf] at h; simp at h
    | some g =>
      rw [hf] at h
      simp only [Option.map_eq_some'] at h
      obtain ⟨rest, hrest, rfl⟩ := h
      exact ⟨m', g, rest, rfl, rfl, hrest, rfl⟩

/-- A positive `isInsideFavoritedFolder` walk means some chain element is a
favorited folder id. -/
theorem insideFav_sound (s : Store) (owner : String) (hnd : NodupIds s) :
    ∀ (n : Nat) (P : Option String),
      isInsideFavoritedFolder (favAllItems s owner) (favFolderIds s owner) n P = true →
      ∀ (m : Nat) (l : List String), chainList s m P = some l →
      ∃ q, q ∈ l ∧ q ∈ favFolderIds s owner := by
  intro n
  induction n with
  | zero => intro P h; simp [isInsideFavoritedFolder] at h
  | succ n ih =>
    intro P h m l hl
    cases P with
    | none => simp [isInsideFavoritedFolder] at h
    | some p =>
      unfold isInsideFavoritedFolder at h
      cases hfa : jsFind (favAllItems s owner) p with
      | none => rw [hfa] at h; simp at h
      | some item =>
        rw [hfa] at h
        obtain ⟨hitem_fa, hitem_id⟩ := jsFind_mem (favAllItems s owner) p item hfa
        obtain ⟨hitem_s, _⟩ := favAllItems_sub s owner item hitem_fa
        have hsf : jsFind s p = some item := by
          have h1 := jsFind_of_mem_nodup s item hitem_s hnd
          rw [hitem_id] at h1
          exact h1
        obtain ⟨m', g, rest, rfl, hg, hrest, rfl⟩ := chainList_some_inv s m p l hl
        have hgitem : g = item := by
          rw [hsf] at hg
          exact (Option.some.inj hg).symm
        subst hgitem
        rw [Bool.or_eq_true] at h
        rcases h with h | h
        · cases hpp : g.parent_id with
          | none => rw [hpp] at h; simp at h
          | some pp =>
            rw [hpp] at h
            rw [hpp] at hrest
            obtain ⟨m2, g2, rest2, _, _, _, rfl⟩ := chainList_some_inv s m' pp rest hrest
            refine ⟨pp, by simp, by simpa using h⟩
        · obtain ⟨q, hq, hqfav⟩ := ih g.parent_id h m' rest hrest
          exact ⟨q, List.mem_cons_of_mem p hq, hqfav⟩

/-- If some chain element is a favorited folder id and the chain's entries
are all among the fetched items, the client's inside-a-favorited-folder
test succeeds. -/
theorem insideFav_complete (s : Store) (owner : String) (hnd : NodupIds s) :
    ∀ (m : Nat) (p : String) (l : List String),
      chainList s m (some p) = some l →
      (∀ y ∈ l, ∀ gy, jsFind s y = some gy → gy ∈ favAllItems s owner) →
      ∀ q, q ∈ l → q ∈ favFolderIds s owner →
      ∀ n, l.length ≤ n →
      ((favFolderIds s owner).contains p ||
        isInsideFavoritedFolder (favAllItems s owner) (favFolderIds s owner) n
          (some p)) = true := by
  intro m
  induction m with
  | zero => intro p l hl; simp [chainList] at hl
  | succ m ih =>
    intro p l hl hentries q hq hqfav n hn
    obtain ⟨m', g, rest, hm, hg, hrest, rfl⟩ := chainList_some_inv s (m + 1) p l hl
    have hm' : m' = m := by omega
    subst hm'
    rcases List.mem_cons.mp hq with rfl | hqrest
    · rw [Bool.or_eq_true]
      left
      simpa using hqfav
    · have hrne : rest ≠ [] := fun hc => by
        rw [hc] at hqrest
        simp at hqrest
      cases hpp : g.parent_id with
      | none =>
        rw [hpp] at hrest
        simp [chainList] at hrest
        exact absurd hrest hrne
      | some pp =>
        rw [hpp] at hrest
        cases n with
        | zero =>
          exfalso
          simp at hn
        | succ n' =>
          have hgfa : g ∈ favAllItems s owner :=
            hentries p (List.mem_cons_self p rest) g hg
          have hfasub : jsFind (favAllItems s owner) p = some g :=
            jsFind_sub s (favAllItems s owner) (fun y hy => (favAllItems_sub s owner y hy).1)
              hnd p g hg hgfa
          have hih := ih pp rest hrest
            (fun y hy gy hgy => hentries y (List.mem_cons_of_mem p hy) gy hgy)
            q hqrest hqfav n' (by simp at hn; omega)
          rw [Bool.or_eq_true]
          right
          unfold isInsideFavoritedFolder
          rw [hfasub]
          dsimp only
          rw [hpp]
          exact hih

/-- Membership in the favorites screen's `allItemsToShow`: the starred root
entries plus everything below a starred root folder. -/
theorem pool_mem (s : Store) (owner : String) (hA : Acyclic s)
    (hnd : NodupIds s) (hpw : ParentWF s) (x : Entry) :
    x ∈ favAllItemsToShow s owner ↔
      (x ∈ s ∧ x.owner = owner ∧
        ((x.is_starred = true ∧ x.parent_id = none) ∨
          ∃ f, RootStarFolder s owner f ∧ IsDescendantOf s f.id x)) := by
  unfold favAllItemsToShow
  rw [List.mem_filter]
  constructor
  · intro ⟨hfa, hcond⟩
    obtain ⟨hxs, hxo, hcase⟩ := (favAllItems_mem s owner hA hnd hpw x).mp hfa
    refine ⟨hxs, hxo, ?_⟩
    rcases hcase with hroot | hdesc
    · left
      rw [hroot] at hcond
      simp at hcond
      exact ⟨hcond, hroot⟩
    · exact Or.inr hdesc
  · intro ⟨hxs, hxo, hcase⟩
    rcases hcase with ⟨hstar, hroot⟩ | ⟨f, hf, hdesc⟩
    · refine ⟨(favAllItems_mem s owner hA hnd hpw x).mpr ⟨hxs, hxo, Or.inl hroot⟩, ?_⟩
      simp [hstar]
    · refine ⟨(favAllItems_mem s owner hA hnd hpw x).mpr ⟨hxs, hxo, Or.inr ⟨f, hf, hdesc⟩⟩, ?_⟩
      obtain ⟨n, hn⟩ := hdesc
      cases hp : x.parent_id with
      | none => rw [hp] at hn; simp [chainHasId] at hn
      | some p =>
        rw [hp] at hn
        obtain ⟨m, l, hl0⟩ := acyclic_chainList s hA x hxs
        rw [hp] at hl0
        have hfmem : f.id ∈ l := mem_of_chainHasId s n (some p) f.id hn m l hl0
        have hffind : jsFind s f.id = some f := jsFind_of_mem_nodup s f hf.1 hnd
        have hfchain : chainList s 1 (some f.id) = some [f.id] := by
          simp [chainList, hffind, hf.2.2.1]
        have hentries : ∀ y ∈ l, ∀ gy, jsFind s y = some gy →
            gy ∈ favAllItems s owner := by
          intro y hy gy hgy
          obtain ⟨my, l₂, hychain, hysuf⟩ := chainList_mem_suffix s m (some p) l hl0 y hy
          have hfsuf : [f.id] <:+ l := by
            obtain ⟨mf, lf, hfchain2, hfsuf2⟩ :=
              chainList_mem_suffix s m (some p) l hl0 f.id hfmem
            have : f.id :: lf = [f.id] :=
              chainList_fuel_irrel s mf 1 (some f.id) (f.id :: lf) [f.id] hfchain2 hfchain
            rw [this] at hfsuf2
            exact hfsuf2
          have hown : gy.owner = owner := by
            have := chain_owner s hnd hpw m x l hxs (by rw [hp]; exact hl0) y hy gy hgy
            rw [this]
            exact hxo
          have hgys : gy ∈ s := (jsFind_mem s y gy hgy).1
          rcases List.suffix_or_suffix_of_suffix hysuf hfsuf with hcmp | hcmp
          · -- (y :: l₂) <:+ [f.id] : y is f itself
            have hyf : f.id = y ∧ l₂ = [] := by
              cases hcmp with
              | intro t ht =>
                cases t with
                | nil => simpa using ht.symm
                | cons a t' =>
                  exfalso
                  have := congrArg List.length ht
                  simp at this
            obtain ⟨hfy, hl2nil⟩ := hyf
            subst hl2nil
            subst hfy
            have : gy = f := by
              rw [hffind] at hgy
              exact (Option.some.inj hgy).symm
            subst this
            exact (favAllItems_mem s owner hA hnd hpw gy).mpr
              ⟨hgys, hown, Or.inl hf.2.2.1⟩
          · -- [f.id] <:+ (y :: l₂) : f.id occurs at y or below in l₂
            have hfin : f.id ∈ y :: l₂ := hcmp.subset (by simp)
            rcases List.mem_cons.mp hfin with hyf | hfl₂
            · subst hyf
              have : gy = f := by
                rw [hffind] at hgy
                exact (Option.some.inj hgy).symm
              subst this
              exact (favAllItems_mem s owner hA hnd hpw gy).mpr
                ⟨hgys, hown, Or.inl hf.2.2.1⟩
            · obtain ⟨my', gy', l₂', hmy, hgy', hl₂', hcons⟩ :=
                chainList_some_inv s my y (y :: l₂) hychain
              have h1 : gy' = gy := by
                rw [hgy] at hgy'
                exact (Option.some.inj hgy').symm
              have h2 : l₂' = l₂ := by
                injection hcons with h3 h4
                exact h4.symm
              rw [h1, h2] at hl₂'
              have hdesc2 : IsDescendantOf s f.id gy :=
                ⟨my', chainHasId_of_mem s my' gy.parent_id l₂ f.id hl₂' hfl₂⟩
              exact (favAllItems_mem s owner hA hnd hpw gy).mpr
                ⟨hgys, hown, Or.inr ⟨f, hf, hdesc2⟩⟩
        have hlen : l.length ≤ s.length := chainList_length_le s m (some p) l hl0
        have hcomp := insideFav_complete s owner hnd m p l hl0 hentries f.id hfmem
          ((favFolderIds_mem s owner f.id).mpr ⟨f, hf, rfl⟩) s.length hlen
        dsimp only
        rw [Bool.or_eq_true]
        right
        exact hcomp

end Citrus

namespace Citrus

theorem favNodes_node (e : Entry) (cs : List FavTree) :
    favNodes (FavTree.node e cs) = e :: (cs.map favNodes).flatten := by
  unfold favNodes
  rw [List.attach_map_coe]

/-- `x` appears in the tree built from `r` over the pool, `k` levels below
`r`, following the pool's parent adjacency. -/
inductive PoolSub (pool : List Entry) : Entry → Entry → Nat → Prop where
  | child : ∀ {r x : Entry}, x ∈ pool → x.parent_id = some r.id → PoolSub pool r x 0
  | nest : ∀ {r x g : Entry} {k : Nat}, g ∈ pool → g.parent_id = some r.id →
      PoolSub pool g x k → PoolSub pool r x (k + 1)

theorem bh_root (pool : List Entry) (n : Nat) (r : Entry) :
    ∃ cs, buildHierarchy pool n r = FavTree.node r cs := by
  cases n <;> exact ⟨_, rfl⟩

theorem bh_mem_self (pool : List Entry) (n : Nat) (r : Entry) :
    r ∈ favNodes (buildHierarchy pool n r) := by
  obtain ⟨cs, hcs⟩ := bh_root pool n r
  rw [hcs, favNodes_node]
  exact List.mem_cons_self r _

theorem bh_sound (pool : List Entry) :
    ∀ (n : Nat) (r x : Entry), x ∈ favNodes (buildHierarchy pool n r) →
      x = r ∨ ∃ k, PoolSub pool r x k := by
  intro n
  induction n with
  | zero =>
    intro r x h
    unfold buildHierarchy at h
    rw [favNodes_node] at h
    simp at h
    exact Or.inl h
  | succ n ih =>
    intro r x h
    unfold buildHierarchy at h
    rw [favNodes_node] at h
    rcases List.mem_cons.mp h with rfl | hflat
    · exact Or.inl rfl
    · rw [List.mem_flatten] at hflat
      obtain ⟨L, hL, hxL⟩ := hflat
      rw [List.map_map, List.mem_map] at hL
      obtain ⟨c, hc, rfl⟩ := hL
      rw [List.mem_filter] at hc
      obtain ⟨hcpool, hcpar⟩ := hc
      have hcp : c.parent_id = some r.id := by simpa using hcpar
      rcases ih c x hxL with rfl | ⟨k, hk⟩
      · exact Or.inr ⟨0, PoolSub.child hcpool hcp⟩
      · exact Or.inr ⟨k + 1, PoolSub.nest hcpool hcp hk⟩

theorem bh_complete (pool : List Entry) {r x : Entry} {k : Nat}
    (h : PoolSub pool r x k) :
    ∀ n, k < n → x ∈ favNodes (buildHierarchy pool n r) := by
  induction h with
  | @child r x hx hp =>
    intro n hn
    cases n with
    | zero => omega
    | succ n' =>
      unfold buildHierarchy
      rw [favNodes_node]
      apply List.mem_cons_of_mem
      rw [List.mem_flatten]
      refine ⟨favNodes (buildHierarchy pool n' x), ?_, bh_mem_self pool n' x⟩
      rw [List.map_map, List.mem_map]
      refine ⟨x, ?_, rfl⟩
      rw [List.mem_filter]
      exact ⟨hx, by simp [hp]⟩
  | @nest r x g k hg hgp hsub ih =>
    intro n hn
    cases n with
    | zero => omega
    | succ n' =>
      unfold buildHierarchy
      rw [favNodes_node]
      apply List.mem_cons_of_mem
      rw [List.mem_flatten]
      refine ⟨favNodes (buildHierarchy pool n' g), ?_, ih n' (by omega)⟩
      rw [List.map_map, List.mem_map]
      refine ⟨g, ?_, rfl⟩
      rw [List.mem_filter]
      exact ⟨hg, by simp [hgp]⟩

theorem poolSub_desc (s : Store) (pool : List Entry)
    (hsub : ∀ y ∈ pool, y ∈ s) (hnd : NodupIds s) {r x : Entry} {k : Nat}
    (h : PoolSub pool r x k) : IsDescendantOf s r.id x ∧ x ∈ pool := by
  induction h with
  | @child r x hx hp => exact ⟨⟨1, by simp [chainHasId, hp]⟩, hx⟩
  | @nest r x g k hg hgp hsubd ih =>
    obtain ⟨⟨n, hn⟩, hxpool⟩ := ih
    have hfg : jsFind s g.id = some g := jsFind_of_mem_nodup s g (hsub g hg) hnd
    have ht : chainHasId s 1 g.parent_id r.id = true := by simp [chainHasId, hgp]
    exact ⟨chainHasId_extend s n x.parent_id g.id hn g r.id 1 hfg ht, hxpool⟩

theorem subtree_to_poolSub (s : Store) (owner : String) (pool : List Entry)
    (hnd : NodupIds s) {fid : String} {x : Entry} {k : Nat}
    (h : SubtreeAt s owner fid x k) :
    ∀ (r : Entry), r ∈ s → r.id = fid →
      (∀ y, y ∈ s → y.owner = owner → IsDescendantOf s fid y → y ∈ pool) →
      PoolSub pool r x k := by
  induction h with
  | @child fid e he heo hep =>
    intro r hr hrid hset
    refine PoolSub.child (hset e he heo ⟨1, by simp [chainHasId, hep]⟩) ?_
    rw [hrid]
    exact hep
  | @nest fid e g k hg hgo hgf hgp hsubd ih =>
    intro r hr hrid hset
    have hgdesc : IsDescendantOf s fid g := ⟨1, by simp [chainHasId, hgp]⟩
    have hgpool : g ∈ pool := hset g hg hgo hgdesc
    have hsetg : ∀ y, y ∈ s → y.owner = owner → IsDescendantOf s g.id y → y ∈ pool := by
      intro y hy hyo hyd
      obtain ⟨n, hn⟩ := hyd
      apply hset y hy hyo
      have hfg : jsFind s g.id = some g := jsFind_of_mem_nodup s g hg hnd
      have ht : chainHasId s 1 g.parent_id fid = true := by simp [chainHasId, hgp]
      exact chainHasId_extend s n y.parent_id g.id hn g fid 1 hfg ht
    refine PoolSub.nest hgpool ?_ (ih g hg rfl hsetg)
    rw [hrid]
    exact hgp

theorem favRootItems_mem (s : Store) (owner : String) (x : Entry) :
    x ∈ favRootItems s owner ↔ x ∈ favAllItemsToShow s owner ∧ x.is_starred = true := by
  unfold favRootItems
  rw [List.mem_filter]

theorem favRoots_fetch (s : Store) (owner : String) :
    favRoots (favoritesFetchItems s owner) = favRootItems s owner := by
  unfold favRoots favoritesFetchItems
  rw [List.map_map]
  have hcomp : ((fun t => match t with | FavTree.node e _ => e) ∘
      (fun item => buildHierarchy (favAllItemsToShow s owner) s.length item)) =
      fun item => item := by
    funext item
    obtain ⟨cs, hcs⟩ := bh_root (favAllItemsToShow s owner) s.length item
    simp [Function.comp, hcs]
  rw [hcomp]
  exact List.map_id _

end Citrus

namespace Citrus

/-- C1 (amended): for every owner and every acyclic, well-formed entry set,
the favorites view's node set is exactly the starred root-level entries
together with the descendants (at any depth) of starred root-level folders,
and the roots of the forest are exactly the directly-starred entries among
these.  A starred entry nested inside unstarred folders is never fetched
and does not appear. -/
theorem c1_favorites_view_amended (s : Store) (owner : String)
    (hA : Acyclic s) (hnd : NodupIds s) (hpw : ParentWF s) :
    ∀ e ∈ s, e.owner = owner →
      ((∃ t ∈ favoritesFetchItems s owner, e ∈ favNodes t) ↔
        ((e.is_starred = true ∧ e.parent_id = none) ∨
          ∃ f, RootStarFolder s owner f ∧ IsDescendantOf s f.id e)) ∧
      (e ∈ favRoots (favoritesFetchItems s owner) ↔
        (e.is_starred = true ∧
          (e.parent_id = none ∨
            ∃ f, RootStarFolder s owner f ∧ IsDescendantOf s f.id e))) := by
  intro e he heo
  have hpool := pool_mem s owner hA hnd hpw
  have hpoolsub : ∀ y ∈ favAllItemsToShow s owner, y ∈ s :=
    fun y hy => ((hpool y).mp hy).1
  constructor
  · constructor
    · rintro ⟨t, ht, het⟩
      unfold favoritesFetchItems at ht
      rw [List.mem_map] at ht
      obtain ⟨r, hr, rfl⟩ := ht
      rcases bh_sound (favAllItemsToShow s owner) s.length r e het with rfl | ⟨k, hk⟩
      · obtain ⟨hrpool, hrstar⟩ := (favRootItems_mem s owner e).mp hr
        exact ((hpool e).mp hrpool).2.2
      · obtain ⟨_, hepool⟩ := poolSub_desc s _ hpoolsub hnd hk
        exact ((hpool e).mp hepool).2.2
    · intro hcase
      rcases hcase with ⟨hstar, hroot⟩ | ⟨f, hf, hdesc⟩
      · have hepool : e ∈ favAllItemsToShow s owner :=
          (hpool e).mpr ⟨he, heo, Or.inl ⟨hstar, hroot⟩⟩
        have heroot : e ∈ favRootItems s owner :=
          (favRootItems_mem s owner e).mpr ⟨hepool, hstar⟩
        refine ⟨buildHierarchy (favAllItemsToShow s owner) s.length e, ?_,
          bh_mem_self _ _ e⟩
        unfold favoritesFetchItems
        rw [List.mem_map]
        exact ⟨e, heroot, rfl⟩
      · have hfpool : f ∈ favAllItemsToShow s owner :=
          (hpool f).mpr ⟨hf.1, hf.2.1, Or.inl ⟨hf.2.2.2.1, hf.2.2.1⟩⟩
        have hfroot : f ∈ favRootItems s owner :=
          (favRootItems_mem s owner f).mpr ⟨hfpool, hf.2.2.2.1⟩
        obtain ⟨n, hn⟩ := hdesc
        obtain ⟨m, l, hl⟩ := acyclic_chainList s hA e he
        have hfmem : f.id ∈ l := mem_of_chainHasId s n e.parent_id f.id hn m l hl
        obtain ⟨k, hsubt, hkb⟩ := desc_subtree s owner hnd hpw m e l f.id he heo hl hfmem
        have hset : ∀ y, y ∈ s → y.owner = owner → IsDescendantOf s f.id y →
            y ∈ favAllItemsToShow s owner := fun y hy hyo hyd =>
          (hpool y).mpr ⟨hy, hyo, Or.inr ⟨f, hf, hyd⟩⟩
        have hps := subtree_to_poolSub s owner _ hnd hsubt f hf.1 rfl hset
        have hlen : l.length ≤ s.length := chainList_length_le s m e.parent_id l hl
        have hin := bh_complete _ hps s.length (by omega)
        refine ⟨buildHierarchy (favAllItemsToShow s owner) s.length f, ?_, hin⟩
        unfold favoritesFetchItems
        rw [List.mem_map]
        exact ⟨f, hfroot, rfl⟩
  · rw [favRoots_fetch, favRootItems_mem]
    constructor
    · intro ⟨hpoole, hstar⟩
      refine ⟨hstar, ?_⟩
      rcases ((hpool e).mp hpoole).2.2 with ⟨_, hroot⟩ | hdesc
      · exact Or.inl hroot
      · exact Or.inr hdesc
    · intro ⟨hstar, hcase⟩
      refine ⟨?_, hstar⟩
      rcases hcase with hroot | hdesc
      · exact (hpool e).mpr ⟨he, heo, Or.inl ⟨hstar, hroot⟩⟩
      · exact (hpool e).mpr ⟨he, heo, Or.inr hdesc⟩

def c1U : Entry := ⟨"u1", "own", "U", true, none, false, [], 0, none⟩

def c1X : Entry := ⟨"x1", "own", "X", false, some "u1", true, [], 0, none⟩

/-- C1 counterexample: in the acyclic, well-formed two-entry store with an
unstarred root folder U and a starred file X inside it, X satisfies the
spec's favorites node condition (it is starred), yet the favorites
computation returns the empty forest — X appears neither as a node nor as a
root, against the claim. -/
theorem c1_favorites_view_counterexample :
    Acyclic [c1U, c1X] ∧ NodupIds [c1U, c1X] ∧ ParentWF [c1U, c1X] ∧
      c1X ∈ ([c1U, c1X] : Store) ∧ c1X.owner = "own" ∧
      SpecFavNode [c1U, c1X] "own" c1X ∧
      favoritesFetchItems [c1U, c1X] "own" = [] ∧
      ¬(∃ t ∈ favoritesFetchItems [c1U, c1X] "own", c1X ∈ favNodes t) ∧
      c1X ∉ favRoots (favoritesFetchItems [c1U, c1X] "own") := by
  refine ⟨?_, by unfold NodupIds; decide, ?_, by simp, rfl, Or.inl rfl, rfl, ?_, ?_⟩
  · intro e he
    rcases List.mem_cons.mp he with rfl | he2
    · exact ⟨1, rfl⟩
    · have he3 : e = c1X := by simpa using he2
      subst he3
      exact ⟨2, by decide⟩
  · intro e he p hp
    rcases List.mem_cons.mp he with rfl | he2
    · exact absurd hp (by simp [c1U])
    · have he3 : e = c1X := by simpa using he2
      subst he3
      have hp2 : p = "u1" := by
        have : some "u1" = some p := hp
        exact (Option.some.inj this).symm
      subst hp2
      exact ⟨c1U, by simp, rfl, rfl, rfl⟩
  · rintro ⟨t, ht, -⟩
    rw [show favoritesFetchItems [c1U, c1X] "own" = [] from rfl] at ht
    simp at ht
  · intro h
    rw [show favoritesFetchItems [c1U, c1X] "own" = [] from rfl] at h
    simp [favRoots] at h

def c1wF : Entry := ⟨"wf", "w", "WF", true, none, true, [], 0, none⟩

def c1wX : Entry := ⟨"wx", "w", "WX", false, some "wf", false, [], 0, none⟩

theorem c1_favorites_view_amended_witness :
    ((∃ t ∈ favoritesFetchItems [c1wF, c1wX] "w", c1wX ∈ favNodes t) ↔
      ((c1wX.is_starred = true ∧ c1wX.parent_id = none) ∨
        ∃ f, RootStarFolder [c1wF, c1wX] "w" f ∧
          IsDescendantOf [c1wF, c1wX] f.id c1wX)) ∧
    (c1wX ∈ favRoots (favoritesFetchItems [c1wF, c1wX] "w") ↔
      (c1wX.is_starred = true ∧
        (c1wX.parent_id = none ∨
          ∃ f, RootStarFolder [c1wF, c1wX] "w" f ∧
            IsDescendantOf [c1wF, c1wX] f.id c1wX))) := by
  have hA : Acyclic [c1wF, c1wX] := by
    intro e he
    rcases List.mem_cons.mp he with rfl | he2
    · exact ⟨1, rfl⟩
    · have he3 : e = c1wX := by simpa using he2
      subst he3
      exact ⟨2, by decide⟩
  have hpw : ParentWF [c1wF, c1wX] := by
    intro e he p hp
    rcases List.mem_cons.mp he with rfl | he2
    · exact absurd hp (by simp [c1wF])
    · have he3 : e = c1wX := by simpa using he2
      subst he3
      have hp2 : p = "wf" := by
        have : some "wf" = some p := hp
        exact (Option.some.inj this).symm
      subst hp2
      exact ⟨c1wF, by simp, rfl, rfl, rfl⟩
  exact c1_favorites_view_amended [c1wF, c1wX] "w" hA (by unfold NodupIds; decide)
    hpw c1wX (by simp) rfl

end Citrus
